import Mathlib

/-!
Verification of the eviction-cache module of this repository
(`capital-one-interview/coding-samples/04_lru_cache.py`).

Shallow embedding conventions:
* Python `dict` / `OrderedDict` values are modelled as association lists in
  insertion order (`lookupd`, `setd`, `erased` mirror `d[k]`, `d[k] = v`,
  `del d[k]`; `d[k] = v` keeps the position of an existing key, as Python
  dicts do, and appends a fresh key at the end).
* The doubly linked list of `LRUCache` is modelled as the list of its real
  nodes from head (most recently used) to tail (least recently used); the
  hash map `self.cache` is an O(1) index over exactly these nodes, so one
  list carries both structures.
* Operations that can raise a Python exception (`AttributeError` on the
  dummy-node underflow in `_pop_tail`, `KeyError` on `del`/`popitem`)
  return `Option`: `none` is an escaped exception.
-/

section DictPrimitives

variable {α : Type} {β : Type} [DecidableEq α]

/-- Python `d[k]` as a total lookup: first binding of `k`, if any. -/
def lookupd : List (α × β) → α → Option β
  | [], _ => none
  | (k', v) :: rest, k => if k' = k then some v else lookupd rest k

/-- Python `d[k] = v`: overwrite in place if `k` is bound, else append. -/
def setd : List (α × β) → α → β → List (α × β)
  | [], k, v => [(k, v)]
  | (k', v') :: rest, k, v =>
    if k' = k then (k, v) :: rest else (k', v') :: setd rest k v

/-- Python `del d[k]` (the caller checks presence): drop the first binding of `k`. -/
def erased : List (α × β) → α → List (α × β)
  | [], _ => []
  | (k', v') :: rest, k => if k' = k then rest else (k', v') :: erased rest k

end DictPrimitives

/-- Remove the first occurrence of `k` from a list of keys
(Python `del od[k]` on an `OrderedDict` used as an ordered set). -/
def eraseKey : List Int → Int → List Int
  | [], _ => []
  | x :: rest, k => if x = k then rest else x :: eraseKey rest k

/-- One public cache operation: `get(key)` or `put(key, value)`. -/
inductive Op where
  | get (key : Int)
  | put (key : Int) (value : Int)
deriving DecidableEq

/-! ### LRUCache (hash map + doubly linked list), lines 27-99 -/

/-- State of `LRUCache`: `order` is the linked list of real nodes from the
most recently used (right after the dummy head) to the least recently used
(right before the dummy tail).  `self.cache` indexes exactly these nodes. -/
structure LRUState where
  capacity : Int
  order : List (Int × Int)
deriving DecidableEq

/-- `LRUCache.__init__`: stores the capacity unchecked, empty structures. -/
def lruInit (capacity : Int) : LRUState := ⟨capacity, []⟩

/-- `LRUCache.get`: miss returns `-1`; a hit moves the node to the head
(`_move_to_head` = `_remove_node` + `_add_to_head`) and returns its value. -/
def lruGet (s : LRUState) (key : Int) : Int × LRUState :=
  match lookupd s.order key with
  | none => (-1, s)
  | some v => (v, ⟨s.capacity, (key, v) :: erased s.order key⟩)

/-- `LRUCache._pop_tail`: detach and return the node before the dummy tail.
On an empty list `self.tail.prev` is the dummy head, whose `prev` is `None`,
so `_remove_node` raises `AttributeError`: modelled as `none`. -/
def popTail : List (Int × Int) → Option ((Int × Int) × List (Int × Int))
  | [] => none
  | [p] => some (p, [])
  | p :: q :: rest =>
    match popTail (q :: rest) with
    | none => none
    | some (last, front) => some (last, p :: front)

/-- `LRUCache.put`: update-and-promote if present; otherwise evict the tail
node when `len(self.cache) >= self.capacity` (the `del self.cache[lru.key]`
removes the popped node from the index, which the single list already
reflects), then insert the new node at the head. -/
def lruPut (s : LRUState) (key value : Int) : Option LRUState :=
  match lookupd s.order key with
  | some _ => some ⟨s.capacity, (key, value) :: erased s.order key⟩
  | none =>
    if (s.order.length : Int) ≥ s.capacity then
      match popTail s.order with
      | none => none
      | some (_, front) => some ⟨s.capacity, (key, value) :: front⟩
    else
      some ⟨s.capacity, (key, value) :: s.order⟩

/-! ### LRUCacheSimple (OrderedDict), lines 102-130 -/

/-- State of `LRUCacheSimple`: the `OrderedDict` from oldest (front) to most
recently used (back). -/
structure LRUSimpleState where
  capacity : Int
  cache : List (Int × Int)
deriving DecidableEq

/-- `LRUCacheSimple.__init__`. -/
def lruSimpleInit (capacity : Int) : LRUSimpleState := ⟨capacity, []⟩

/-- `LRUCacheSimple.get`: miss returns `-1`; a hit is `move_to_end` (drop the
binding, re-append it at the back) and returns the value. -/
def lruSimpleGet (s : LRUSimpleState) (key : Int) : Int × LRUSimpleState :=
  match lookupd s.cache key with
  | none => (-1, s)
  | some v => (v, ⟨s.capacity, erased s.cache key ++ [(key, v)]⟩)

/-- `LRUCacheSimple.put`: `move_to_end` when present, then `self.cache[key] =
value` (for a present key this updates the binding now at the back; for a
fresh key it appends), then `popitem(last=False)` drops the oldest binding
when over capacity.  Both branches amount to erase-then-append. -/
def lruSimplePut (s : LRUSimpleState) (key value : Int) : LRUSimpleState :=
  let l := erased s.cache key ++ [(key, value)]
  if (l.length : Int) > s.capacity then ⟨s.capacity, l.tail⟩
  else ⟨s.capacity, l⟩

/-! ### LFUCache, lines 133-197 -/

/-- State of `LFUCache`.  `freq_to_keys` maps a frequency to the keys of its
`OrderedDict` bucket, front = least recently touched at that frequency. -/
structure LFUState where
  capacity : Int
  min_freq : Nat
  key_to_val : List (Int × Int)
  key_to_freq : List (Int × Nat)
  freq_to_keys : List (Nat × List Int)
deriving DecidableEq

/-- `LFUCache.__init__`: stores the capacity unchecked, empty structures. -/
def lfuInit (capacity : Int) : LFUState := ⟨capacity, 0, [], [], []⟩

/-- OrderedDict `d[key] = None` on a bucket: keeps the position of a present
key, appends a fresh key at the back. -/
def bucketAdd (b : List Int) (key : Int) : List Int :=
  if key ∈ b then b else b ++ [key]

/-- `LFUCache._update_freq`: bump `key_to_freq[key]`, delete the key from its
old bucket, advance `min_freq` when that bucket emptied and was minimal, and
append the key to the bucket of the new frequency (created if absent).  The
`del` on a missing frequency or key raises `KeyError` (`none`). -/
def lfuUpdateFreq (s : LFUState) (key : Int) : Option LFUState :=
  match lookupd s.key_to_freq key with
  | none => none
  | some freq =>
    let kf := setd s.key_to_freq key (freq + 1)
    match lookupd s.freq_to_keys freq with
    | none => none
    | some b =>
      if key ∈ b then
        let b' := eraseKey b key
        let ftk1 := setd s.freq_to_keys freq b'
        let mf := if b' = [] ∧ s.min_freq = freq then freq + 1 else s.min_freq
        let ftk2 :=
          match lookupd ftk1 (freq + 1) with
          | none => setd ftk1 (freq + 1) [key]
          | some b2 => setd ftk1 (freq + 1) (bucketAdd b2 key)
        some ⟨s.capacity, mf, s.key_to_val, kf, ftk2⟩
      else none

/-- `LFUCache.get`: miss returns `-1`; a hit runs `_update_freq` and then
returns `self.key_to_val[key]` looked up again in the updated state. -/
def lfuGet (s : LFUState) (key : Int) : Option (Int × LFUState) :=
  match lookupd s.key_to_val key with
  | none => some (-1, s)
  | some _ =>
    match lfuUpdateFreq s key with
    | none => none
    | some s' =>
      match lookupd s'.key_to_val key with
      | none => none
      | some v => some (v, s')

/-- `LFUCache.put`: no-op when `capacity <= 0`; update-value-and-bump when the
key is present; otherwise, at capacity, `popitem(last=False)` on the
`min_freq` bucket names the victim (front = least recently touched) and the
two `del`s drop it, then the new key is inserted with frequency 1 and
`min_freq` is reset to 1. -/
def lfuPut (s : LFUState) (key value : Int) : Option LFUState :=
  if s.capacity ≤ 0 then some s
  else
    match lookupd s.key_to_val key with
    | some _ =>
      lfuUpdateFreq ⟨s.capacity, s.min_freq, setd s.key_to_val key value,
        s.key_to_freq, s.freq_to_keys⟩ key
    | none =>
      let afterEvict : Option LFUState :=
        if (s.key_to_val.length : Int) ≥ s.capacity then
          match lookupd s.freq_to_keys s.min_freq with
          | none => none
          | some b =>
            match b with
            | [] => none
            | evictKey :: rest =>
              match lookupd s.key_to_val evictKey,
                    lookupd s.key_to_freq evictKey with
              | some _, some _ =>
                some ⟨s.capacity, s.min_freq, erased s.key_to_val evictKey,
                      erased s.key_to_freq evictKey,
                      setd s.freq_to_keys s.min_freq rest⟩
              | _, _ => none
        else some s
      match afterEvict with
      | none => none
      | some s1 =>
        let ftk :=
          match lookupd s1.freq_to_keys 1 with
          | none => setd s1.freq_to_keys 1 [key]
          | some b => setd s1.freq_to_keys 1 (bucketAdd b key)
        some ⟨s1.capacity, 1, setd s1.key_to_val key value,
              setd s1.key_to_freq key 1, ftk⟩

/-! ### Running operation sequences -/

/-- One step of `LRUCache`; a `get` also reports its returned value. -/
def lruStep (s : LRUState) : Op → Option (Option Int × LRUState)
  | .get k => some (some (lruGet s k).1, (lruGet s k).2)
  | .put k v => (lruPut s k v).map (fun s' => (none, s'))

/-- One step of `LRUCacheSimple` (total: it can raise no exception). -/
def lruSimpleStep (s : LRUSimpleState) : Op → Option Int × LRUSimpleState
  | .get k => (some (lruSimpleGet s k).1, (lruSimpleGet s k).2)
  | .put k v => (none, lruSimplePut s k v)

/-- One step of `LFUCache`. -/
def lfuStep (s : LFUState) : Op → Option (Option Int × LFUState)
  | .get k => (lfuGet s k).map (fun r => (some r.1, r.2))
  | .put k v => (lfuPut s k v).map (fun s' => (none, s'))

/-- Run a fallible step function over a sequence of operations, collecting
the values returned by the `get`s; `none` is an escaped exception. -/
def runOps {σ : Type} (step : σ → Op → Option (Option Int × σ)) :
    σ → List Op → Option (List Int × σ)
  | s, [] => some ([], s)
  | s, op :: rest =>
    match step s op with
    | none => none
    | some (o, s') =>
      match runOps step s' rest with
      | none => none
      | some (outs, sf) => some (o.toList ++ outs, sf)

/-- Run a total step function over a sequence of operations. -/
def runOpsT {σ : Type} (step : σ → Op → Option Int × σ) :
    σ → List Op → List Int × σ
  | s, [] => ([], s)
  | s, op :: rest =>
    let r := step s op
    let rf := runOpsT step r.2 rest
    (r.1.toList ++ rf.1, rf.2)

/-- A fresh `LRUCache(capacity)` driven through `ops`. -/
def lruRun (capacity : Int) (ops : List Op) : Option (List Int × LRUState) :=
  runOps lruStep (lruInit capacity) ops

/-- A fresh `LRUCacheSimple(capacity)` driven through `ops`. -/
def lruSimpleRun (capacity : Int) (ops : List Op) : List Int × LRUSimpleState :=
  runOpsT lruSimpleStep (lruSimpleInit capacity) ops

/-- A fresh `LFUCache(capacity)` driven through `ops`. -/
def lfuRun (capacity : Int) (ops : List Op) : Option (List Int × LFUState) :=
  runOps lfuStep (lfuInit capacity) ops

/-! ### Recency ghost data: when was a key last touched? -/

/-- Does an operation touch (access or write) the key `a`?  A `get` on a
present key promotes it and a `put` writes it; a `get` on an absent key
leaves the state unchanged, so counting it as a touch is harmless: while a
key is absent no ordering structure refers to it. -/
def touches (op : Op) (a : Int) : Bool :=
  match op with
  | .get k => k = a
  | .put k _ => k = a

/-- Index of the first element satisfying `p`, if any. -/
def firstIdx (p : Op → Bool) : List Op → Option Nat
  | [] => none
  | o :: rest => if p o then some 0 else (firstIdx p rest).map (· + 1)

/-- Number of operations executed since key `a` was last touched
(`some 0` right after a touch; `none` when never touched). -/
def sinceTouch (ops : List Op) (a : Int) : Option Nat :=
  firstIdx (fun op => touches op a) ops.reverse

/-- Staleness rank of a key: larger means touched longer ago. -/
def rankOf (ops : List Op) (a : Int) : Nat :=
  (sinceTouch ops a).getD 0

/-! ### Lemmas about the dictionary primitives -/

section DictLemmas

variable {α β : Type} [DecidableEq α]

theorem lookupd_eq_none_iff (l : List (α × β)) (k : α) :
    lookupd l k = none ↔ k ∉ l.map Prod.fst := by
  induction l with
  | nil => simp [lookupd]
  | cons p rest ih =>
    obtain ⟨k', v⟩ := p
    by_cases h : k' = k
    · subst h
      simp [lookupd]
    · have h' : ¬k = k' := fun hh => h hh.symm
      simp [lookupd, h, h', ih]

theorem lookupd_isSome_iff (l : List (α × β)) (k : α) :
    (lookupd l k).isSome ↔ k ∈ l.map Prod.fst := by
  rw [Option.isSome_iff_ne_none, ne_eq, lookupd_eq_none_iff, not_not]

theorem lookupd_mem {l : List (α × β)} {k : α} {v : β}
    (h : lookupd l k = some v) : (k, v) ∈ l := by
  induction l with
  | nil => simp [lookupd] at h
  | cons p rest ih =>
    obtain ⟨k', v'⟩ := p
    by_cases hk : k' = k
    · subst hk
      simp [lookupd] at h
      simp [h]
    · simp [lookupd, hk] at h
      exact List.mem_cons_of_mem _ (ih h)

theorem lookupd_of_mem_nodup {l : List (α × β)} {k : α} {v : β}
    (hnd : (l.map Prod.fst).Nodup) (h : (k, v) ∈ l) : lookupd l k = some v := by
  induction l with
  | nil => simp at h
  | cons p rest ih =>
    obtain ⟨k', v'⟩ := p
    simp only [List.map_cons, List.nodup_cons] at hnd
    rcases List.mem_cons.mp h with h1 | h2
    · cases h1
      simp [lookupd]
    · have hne : k' ≠ k := by
        rintro rfl
        exact hnd.1 (List.mem_map.mpr ⟨(k', v), h2, rfl⟩)
      simp only [lookupd, if_neg hne]
      exact ih hnd.2 h2

theorem lookupd_append_right {l1 : List (α × β)} (l2 : List (α × β)) {k : α}
    (h : k ∉ l1.map Prod.fst) : lookupd (l1 ++ l2) k = lookupd l2 k := by
  induction l1 with
  | nil => simp
  | cons p rest ih =>
    obtain ⟨k', v'⟩ := p
    simp only [List.map_cons, List.mem_cons] at h
    push_neg at h
    have hne : k' ≠ k := fun hh => h.1 hh.symm
    simp only [List.cons_append, lookupd, if_neg hne]
    exact ih h.2

theorem setd_eq_append {l : List (α × β)} {k : α} (v : β)
    (h : k ∉ l.map Prod.fst) : setd l k v = l ++ [(k, v)] := by
  induction l with
  | nil => simp [setd]
  | cons p rest ih =>
    obtain ⟨k', v'⟩ := p
    simp only [List.map_cons, List.mem_cons] at h
    push_neg at h
    have hne : k' ≠ k := fun hh => h.1 hh.symm
    simp [setd, hne, ih h.2]

theorem keys_setd_of_mem {l : List (α × β)} {k : α} (v : β)
    (h : k ∈ l.map Prod.fst) : (setd l k v).map Prod.fst = l.map Prod.fst := by
  induction l with
  | nil => simp at h
  | cons p rest ih =>
    obtain ⟨k', v'⟩ := p
    by_cases hk : k' = k
    · subst hk
      simp [setd]
    · have : k ∈ rest.map Prod.fst := by
        rcases List.mem_cons.mp h with h1 | h2
        · exact absurd h1.symm hk
        · exact h2
      simp [setd, hk, ih this]

theorem lookupd_setd_self (l : List (α × β)) (k : α) (v : β) :
    lookupd (setd l k v) k = some v := by
  induction l with
  | nil => simp [setd, lookupd]
  | cons p rest ih =>
    obtain ⟨k', v'⟩ := p
    by_cases hk : k' = k
    · subst hk
      simp [setd, lookupd]
    · simp [setd, hk, lookupd, ih]

theorem lookupd_setd_ne (l : List (α × β)) {k k' : α} (v : β)
    (h : k' ≠ k) : lookupd (setd l k v) k' = lookupd l k' := by
  have hne : ¬k = k' := fun hh => h hh.symm
  induction l with
  | nil => simp [setd, lookupd, hne]
  | cons p rest ih =>
    obtain ⟨ka, va⟩ := p
    by_cases hk : ka = k
    · subst hk
      simp [setd, lookupd, hne]
    · simp only [setd, if_neg hk, lookupd]
      by_cases hk' : ka = k' <;> simp [hk', ih]

theorem length_setd_of_mem {l : List (α × β)} {k : α} (v : β)
    (h : k ∈ l.map Prod.fst) : (setd l k v).length = l.length := by
  have := keys_setd_of_mem (l := l) (k := k) v h
  have h1 : ((setd l k v).map Prod.fst).length = (l.map Prod.fst).length := by rw [this]
  simpa using h1

theorem nodup_keys_setd {l : List (α × β)} {k : α} (v : β)
    (h : (l.map Prod.fst).Nodup) : ((setd l k v).map Prod.fst).Nodup := by
  by_cases hk : k ∈ l.map Prod.fst
  · rw [keys_setd_of_mem v hk]
    exact h
  · rw [setd_eq_append v hk]
    simp only [List.map_append, List.map_cons, List.map_nil]
    rw [List.nodup_append]
    refine ⟨h, List.nodup_singleton k, fun x hx hxk => ?_⟩
    rw [List.mem_singleton] at hxk
    exact hk (hxk ▸ hx)

theorem erased_sublist (l : List (α × β)) (k : α) : (erased l k).Sublist l := by
  induction l with
  | nil => simp [erased]
  | cons p rest ih =>
    obtain ⟨k', v'⟩ := p
    by_cases hk : k' = k
    · simp [erased, hk]
    · simp only [erased, if_neg hk]
      exact ih.cons₂ (k', v')

theorem nodup_keys_erased {l : List (α × β)} (k : α)
    (h : (l.map Prod.fst).Nodup) : ((erased l k).map Prod.fst).Nodup :=
  ((erased_sublist l k).map Prod.fst).nodup h

theorem erased_of_not_mem {l : List (α × β)} {k : α}
    (h : k ∉ l.map Prod.fst) : erased l k = l := by
  induction l with
  | nil => simp [erased]
  | cons p rest ih =>
    obtain ⟨k', v'⟩ := p
    simp only [List.map_cons, List.mem_cons] at h
    push_neg at h
    have hne : k' ≠ k := fun hh => h.1 hh.symm
    simp [erased, hne, ih h.2]

theorem lookupd_erased_ne (l : List (α × β)) {k k' : α}
    (h : k' ≠ k) : lookupd (erased l k) k' = lookupd l k' := by
  have hne : ¬k = k' := fun hh => h hh.symm
  induction l with
  | nil => simp [erased]
  | cons p rest ih =>
    obtain ⟨ka, va⟩ := p
    by_cases hk : ka = k
    · subst hk
      simp [erased, lookupd, hne]
    · simp only [erased, if_neg hk, lookupd]
      by_cases hk' : ka = k' <;> simp [hk', ih]

theorem lookupd_erased_self {l : List (α × β)} (k : α)
    (h : (l.map Prod.fst).Nodup) : lookupd (erased l k) k = none := by
  induction l with
  | nil => simp [erased, lookupd]
  | cons p rest ih =>
    obtain ⟨k', v'⟩ := p
    simp only [List.map_cons, List.nodup_cons] at h
    by_cases hk : k' = k
    · subst hk
      simp only [erased, if_pos rfl]
      rw [lookupd_eq_none_iff]
      exact h.1
    · simp only [erased, if_neg hk, lookupd, if_neg hk]
      exact ih h.2

theorem length_erased_of_mem {l : List (α × β)} {k : α}
    (h : k ∈ l.map Prod.fst) : (erased l k).length + 1 = l.length := by
  induction l with
  | nil => simp at h
  | cons p rest ih =>
    obtain ⟨k', v'⟩ := p
    by_cases hk : k' = k
    · simp [erased, hk]
    · have : k ∈ rest.map Prod.fst := by
        rcases List.mem_cons.mp h with h1 | h2
        · exact absurd h1.symm hk
        · exact h2
      simp only [erased, if_neg hk, List.length_cons]
      rw [← ih this]

theorem keys_erased_subset (l : List (α × β)) (k : α) :
    ((erased l k).map Prod.fst) ⊆ (l.map Prod.fst) :=
  ((erased_sublist l k).map Prod.fst).subset

end DictLemmas

theorem eraseKey_sublist (b : List Int) (k : Int) : (eraseKey b k).Sublist b := by
  induction b with
  | nil => simp [eraseKey]
  | cons x rest ih =>
    by_cases hx : x = k
    · simp [eraseKey, hx]
    · simp only [eraseKey, if_neg hx]
      exact ih.cons₂ x

theorem mem_eraseKey_of_mem {b : List Int} {m k : Int}
    (hm : m ∈ b) (hne : m ≠ k) : m ∈ eraseKey b k := by
  induction b with
  | nil => simp at hm
  | cons x rest ih =>
    by_cases hx : x = k
    · subst hx
      simp only [eraseKey, if_pos rfl]
      rcases List.mem_cons.mp hm with h1 | h2
      · exact absurd h1 hne
      · exact h2
    · simp only [eraseKey, if_neg hx]
      rcases List.mem_cons.mp hm with h1 | h2
      · exact h1 ▸ List.mem_cons_self x _
      · exact List.mem_cons_of_mem x (ih h2)

theorem not_mem_eraseKey_self {b : List Int} (k : Int)
    (h : b.Nodup) : k ∉ eraseKey b k := by
  induction b with
  | nil => simp [eraseKey]
  | cons x rest ih =>
    simp only [List.nodup_cons] at h
    by_cases hx : x = k
    · subst hx
      simp only [eraseKey, if_pos rfl]
      exact h.1
    · simp only [eraseKey, if_neg hx, List.mem_cons]
      rintro (rfl | hmem)
      · exact hx rfl
      · exact ih h.2 hmem

theorem mem_bucketAdd (b : List Int) (k m : Int) :
    m ∈ bucketAdd b k ↔ m ∈ b ∨ m = k := by
  unfold bucketAdd
  by_cases hk : k ∈ b
  · simp only [if_pos hk]
    constructor
    · exact Or.inl
    · rintro (h | rfl)
      · exact h
      · exact hk
  · simp [if_neg hk]

theorem nodup_bucketAdd {b : List Int} (k : Int)
    (h : b.Nodup) : (bucketAdd b k).Nodup := by
  unfold bucketAdd
  by_cases hk : k ∈ b
  · simpa [if_pos hk] using h
  · simp only [if_neg hk]
    rw [List.nodup_append]
    exact ⟨h, List.nodup_singleton k, by simpa using fun hh => hk hh⟩


/-! ### Lemmas about the recency ghost data -/

theorem sinceTouch_append (ops : List Op) (op : Op) (a : Int) :
    sinceTouch (ops ++ [op]) a =
      if touches op a then some 0 else (sinceTouch ops a).map (· + 1) := by
  unfold sinceTouch
  rw [List.reverse_append]
  simp [firstIdx]

theorem rankOf_append_touch {op : Op} {a : Int} (ops : List Op)
    (h : touches op a = true) : rankOf (ops ++ [op]) a = 0 := by
  unfold rankOf
  rw [sinceTouch_append, if_pos h]
  rfl

theorem rankOf_append_not {op : Op} {a : Int} (ops : List Op)
    (h : touches op a = false) (hs : (sinceTouch ops a).isSome) :
    rankOf (ops ++ [op]) a = rankOf ops a + 1 := by
  unfold rankOf
  rw [sinceTouch_append, if_neg (by simp [h])]
  obtain ⟨n, hn⟩ := Option.isSome_iff_exists.mp hs
  simp [hn]

theorem sinceTouch_append_isSome_of_touch {op : Op} {a : Int} (ops : List Op)
    (h : touches op a = true) : (sinceTouch (ops ++ [op]) a).isSome := by
  rw [sinceTouch_append, if_pos h]
  rfl

theorem sinceTouch_append_isSome_of_isSome {op : Op} {a : Int} (ops : List Op)
    (hs : (sinceTouch ops a).isSome) : (sinceTouch (ops ++ [op]) a).isSome := by
  rw [sinceTouch_append]
  by_cases h : touches op a
  · simp [h]
  · simpa [h] using hs

/-! ### Lemmas about popTail -/

theorem popTail_append (l : List (Int × Int)) (p : Int × Int) :
    popTail (l ++ [p]) = some (p, l) := by
  induction l with
  | nil => rfl
  | cons q rest ih =>
    cases rest with
    | nil => rfl
    | cons r rest' =>
      simp only [List.cons_append] at ih ⊢
      rw [popTail, ih]

theorem popTail_eq_getLast (l : List (Int × Int)) (h : l ≠ []) :
    popTail l = some (l.getLast h, l.dropLast) := by
  conv_lhs => rw [← List.dropLast_append_getLast h]
  rw [popTail_append]

/-! ### Generic lemmas about running operation sequences -/

theorem runOps_inv {σ : Type} (step : σ → Op → Option (Option Int × σ))
    (P : List Op → σ → Prop)
    (hstep : ∀ ops s op, P ops s → ∃ o s', step s op = some (o, s') ∧ P (ops ++ [op]) s') :
    ∀ (ops : List Op) (pre : List Op) (s : σ), P pre s →
      ∃ outs sf, runOps step s ops = some (outs, sf) ∧ P (pre ++ ops) sf := by
  intro ops
  induction ops with
  | nil =>
    intro pre s h
    exact ⟨[], s, rfl, by simpa using h⟩
  | cons op rest ih =>
    intro pre s h
    obtain ⟨o, s', hstep1, hP⟩ := hstep pre s op h
    obtain ⟨outs, sf, hrun, hPf⟩ := ih (pre ++ [op]) s' hP
    refine ⟨o.toList ++ outs, sf, ?_, ?_⟩
    · simp [runOps, hstep1, hrun]
    · simpa [List.append_assoc] using hPf

theorem runOps_preserve {σ : Type} (step : σ → Op → Option (Option Int × σ))
    (P : σ → Prop)
    (hstep : ∀ s op o s', P s → step s op = some (o, s') → P s') :
    ∀ (ops : List Op) (s : σ) (outs : List Int) (sf : σ),
      P s → runOps step s ops = some (outs, sf) → P sf := by
  intro ops
  induction ops with
  | nil =>
    intro s outs sf h hrun
    simp only [runOps, Option.some.injEq, Prod.mk.injEq] at hrun
    exact hrun.2 ▸ h
  | cons op rest ih =>
    intro s outs sf h hrun
    simp only [runOps] at hrun
    cases hs : step s op with
    | none => rw [hs] at hrun; simp at hrun
    | some r =>
      rw [hs] at hrun
      obtain ⟨o, s'⟩ := r
      dsimp only at hrun
      cases hr : runOps step s' rest with
      | none => rw [hr] at hrun; simp at hrun
      | some rf =>
        rw [hr] at hrun
        obtain ⟨outs2, sf2⟩ := rf
        simp only [Option.some.injEq, Prod.mk.injEq] at hrun
        exact hrun.2 ▸ ih s' outs2 sf2 (hstep s op o s' h hs) hr

theorem runOpsT_preserve {σ : Type} (step : σ → Op → Option Int × σ)
    (P : σ → Prop) (hstep : ∀ s op, P s → P (step s op).2) :
    ∀ (ops : List Op) (s : σ), P s → P (runOpsT step s ops).2 := by
  intro ops
  induction ops with
  | nil => intro s h; exact h
  | cons op rest ih =>
    intro s h
    exact ih (step s op).2 (hstep s op h)

/-! ### LRUCache lemmas -/

/-- A sequence of `put` operations, one per key/value pair. -/
def puts (kvs : List (Int × Int)) : List Op := kvs.map (fun p => Op.put p.1 p.2)

theorem lruGet_miss {s : LRUState} {k : Int} (hl : lookupd s.order k = none) :
    lruGet s k = (-1, s) := by
  unfold lruGet
  rw [hl]

theorem lruGet_hit {s : LRUState} {k v : Int} (hl : lookupd s.order k = some v) :
    lruGet s k = (v, ⟨s.capacity, (k, v) :: erased s.order k⟩) := by
  unfold lruGet
  rw [hl]

theorem lruPut_present {s : LRUState} {k w : Int} (v : Int)
    (hl : lookupd s.order k = some w) :
    lruPut s k v = some ⟨s.capacity, (k, v) :: erased s.order k⟩ := by
  unfold lruPut
  rw [hl]

theorem lruPut_fresh_room {s : LRUState} {k : Int} (v : Int)
    (hl : lookupd s.order k = none) (hc : ¬(s.order.length : Int) ≥ s.capacity) :
    lruPut s k v = some ⟨s.capacity, (k, v) :: s.order⟩ := by
  unfold lruPut
  rw [hl]
  dsimp only
  rw [if_neg hc]

theorem lruPut_fresh_evict {s : LRUState} {k : Int} (v : Int)
    (hl : lookupd s.order k = none) (hc : (s.order.length : Int) ≥ s.capacity)
    (hne : s.order ≠ []) :
    lruPut s k v = some ⟨s.capacity, (k, v) :: s.order.dropLast⟩ := by
  unfold lruPut
  rw [hl]
  dsimp only
  rw [if_pos hc, popTail_eq_getLast s.order hne]

theorem lruPut_fresh_nil {s : LRUState} {k : Int} (v : Int)
    (hl : lookupd s.order k = none) (hc : (s.order.length : Int) ≥ s.capacity)
    (hnil : s.order = []) :
    lruPut s k v = none := by
  unfold lruPut
  rw [hl]
  dsimp only
  rw [if_pos hc, hnil]
  rfl

theorem lruStep_get (s : LRUState) (k : Int) :
    lruStep s (Op.get k) = some (some (lruGet s k).1, (lruGet s k).2) := rfl

theorem lruStep_put_eq {s s' : LRUState} {k v : Int}
    (h : lruPut s k v = some s') :
    lruStep s (Op.put k v) = some (none, s') := by
  simp only [lruStep, h, Option.map_some']

theorem lruStep_put_inv {s : LRUState} {k v : Int} {o : Option Int} {s' : LRUState}
    (h : lruStep s (Op.put k v) = some (o, s')) : lruPut s k v = some s' := by
  simp only [lruStep, Option.map_eq_some'] at h
  obtain ⟨s1, hput, hpair⟩ := h
  cases hpair
  exact hput

/-- Any successful `lruPut` makes a state whose order list is the new pair
consed onto a sublist of the old order with the key erased or at the tail
dropped; this shape lemma covers every branch. -/
theorem lruPut_shape {s : LRUState} {k v : Int} {s' : LRUState}
    (h : lruPut s k v = some s') :
    s'.capacity = s.capacity ∧
      ∃ t, s'.order = (k, v) :: t ∧ t.Sublist s.order := by
  unfold lruPut at h
  cases hl : lookupd s.order k with
  | some w =>
    rw [hl] at h
    simp only [Option.some.injEq] at h
    rw [← h]
    exact ⟨rfl, erased s.order k, rfl, erased_sublist s.order k⟩
  | none =>
    rw [hl] at h
    dsimp only at h
    by_cases hc : (s.order.length : Int) ≥ s.capacity
    · rw [if_pos hc] at h
      by_cases hne : s.order = []
      · rw [hne] at h
        simp [popTail] at h
      · rw [popTail_eq_getLast s.order hne] at h
        simp only [Option.some.injEq] at h
        rw [← h]
        exact ⟨rfl, s.order.dropLast, rfl, List.dropLast_sublist s.order⟩
    · rw [if_neg hc] at h
      simp only [Option.some.injEq] at h
      rw [← h]
      exact ⟨rfl, s.order, rfl, List.Sublist.refl s.order⟩

theorem lruStep_capacity {s : LRUState} {op : Op} {o : Option Int} {s' : LRUState}
    (h : lruStep s op = some (o, s')) : s'.capacity = s.capacity := by
  cases op with
  | get k =>
    simp only [lruStep, Option.some.injEq, Prod.mk.injEq] at h
    rw [← h.2]
    unfold lruGet
    cases lookupd s.order k <;> rfl
  | put k v => exact (lruPut_shape (lruStep_put_inv h)).1

theorem lruStep_length {s : LRUState} {op : Op} {o : Option Int} {s' : LRUState}
    (h : lruStep s op = some (o, s'))
    (hlen : (s.order.length : Int) ≤ s.capacity) :
    (s'.order.length : Int) ≤ s.capacity := by
  cases op with
  | get k =>
    simp only [lruStep, Option.some.injEq, Prod.mk.injEq] at h
    rw [← h.2]
    cases hl : lookupd s.order k with
    | none => rw [lruGet_miss hl]; exact hlen
    | some v =>
      rw [lruGet_hit hl]
      have hmem : k ∈ s.order.map Prod.fst := by
        rw [← lookupd_isSome_iff, hl]; rfl
      have hle := length_erased_of_mem (l := s.order) hmem
      simp only [List.length_cons]
      rw [hle]
      exact hlen
  | put k v =>
    have hput := lruStep_put_inv h
    unfold lruPut at hput
    cases hl : lookupd s.order k with
    | some w =>
      rw [hl] at hput
      simp only [Option.some.injEq] at hput
      rw [← hput]
      have hmem : k ∈ s.order.map Prod.fst := by
        rw [← lookupd_isSome_iff, hl]; rfl
      have hle := length_erased_of_mem (l := s.order) hmem
      simp only [List.length_cons]
      rw [hle]
      exact hlen
    | none =>
      rw [hl] at hput
      dsimp only at hput
      by_cases hc : (s.order.length : Int) ≥ s.capacity
      · rw [if_pos hc] at hput
        by_cases hne : s.order = []
        · rw [hne] at hput
          simp [popTail] at hput
        · rw [popTail_eq_getLast s.order hne] at hput
          simp only [Option.some.injEq] at hput
          rw [← hput]
          have hpos : 0 < s.order.length := List.length_pos.mpr hne
          have hdl : s.order.dropLast.length + 1 = s.order.length := by
            rw [List.length_dropLast]
            omega
          simp only [List.length_cons]
          rw [hdl]
          exact hlen
      · rw [if_neg hc] at hput
        simp only [Option.some.injEq] at hput
        rw [← hput]
        push_neg at hc
        simpa using hc

theorem lruStep_nodup {s : LRUState} {op : Op} {o : Option Int} {s' : LRUState}
    (h : lruStep s op = some (o, s'))
    (hnd : (s.order.map Prod.fst).Nodup) : (s'.order.map Prod.fst).Nodup := by
  cases op with
  | get k =>
    simp only [lruStep, Option.some.injEq, Prod.mk.injEq] at h
    rw [← h.2]
    cases hl : lookupd s.order k with
    | none => rw [lruGet_miss hl]; exact hnd
    | some v =>
      rw [lruGet_hit hl]
      simp only [List.map_cons, List.nodup_cons]
      refine ⟨?_, nodup_keys_erased k hnd⟩
      rw [← lookupd_eq_none_iff]
      exact lookupd_erased_self k hnd
  | put k v =>
    have hput := lruStep_put_inv h
    unfold lruPut at hput
    cases hl : lookupd s.order k with
    | some w =>
      rw [hl] at hput
      simp only [Option.some.injEq] at hput
      rw [← hput]
      simp only [List.map_cons, List.nodup_cons]
      refine ⟨?_, nodup_keys_erased k hnd⟩
      rw [← lookupd_eq_none_iff]
      exact lookupd_erased_self k hnd
    | none =>
      have hkabs : k ∉ s.order.map Prod.fst := by
        rw [← lookupd_eq_none_iff]
        exact hl
      rw [hl] at hput
      dsimp only at hput
      by_cases hc : (s.order.length : Int) ≥ s.capacity
      · rw [if_pos hc] at hput
        by_cases hne : s.order = []
        · rw [hne] at hput
          simp [popTail] at hput
        · rw [popTail_eq_getLast s.order hne] at hput
          simp only [Option.some.injEq] at hput
          rw [← hput]
          simp only [List.map_cons, List.nodup_cons]
          constructor
          · intro hmem
            exact hkabs (((List.dropLast_sublist s.order).map Prod.fst).subset hmem)
          · exact ((List.dropLast_sublist s.order).map Prod.fst).nodup hnd
      · rw [if_neg hc] at hput
        simp only [Option.some.injEq] at hput
        rw [← hput]
        simp only [List.map_cons, List.nodup_cons]
        exact ⟨hkabs, hnd⟩

theorem lruStep_total (s : LRUState) (op : Op) (hcap : 1 ≤ s.capacity) :
    (lruStep s op).isSome := by
  cases op with
  | get k => rfl
  | put k v =>
    simp only [lruStep]
    cases hl : lookupd s.order k with
    | some w => rw [lruPut_present v hl]; rfl
    | none =>
      by_cases hc : (s.order.length : Int) ≥ s.capacity
      · have hne : s.order ≠ [] := by
          intro hnil
          rw [hnil] at hc
          simp only [List.length_nil, Nat.cast_zero, ge_iff_le] at hc
          omega
        rw [lruPut_fresh_evict v hl hc hne]
        rfl
      · rw [lruPut_fresh_room v hl hc]
        rfl

theorem runOps_cons_eq {σ : Type} {step : σ → Op → Option (Option Int × σ)} {s : σ}
    {op : Op} {o : Option Int} {s' : σ} {rest : List Op} {outs : List Int} {sf : σ}
    (h1 : step s op = some (o, s')) (h2 : runOps step s' rest = some (outs, sf)) :
    runOps step s (op :: rest) = some (o.toList ++ outs, sf) := by
  simp [runOps, h1, h2]

theorem lru_fresh_puts :
    ∀ (kvs : List (Int × Int)) (s : LRUState),
      (kvs.map Prod.fst).Nodup →
      (∀ p ∈ kvs, lookupd s.order p.1 = none) →
      ((s.order.length : Int) + kvs.length ≤ s.capacity) →
      runOps lruStep s (puts kvs) = some ([], ⟨s.capacity, kvs.reverse ++ s.order⟩) := by
  intro kvs
  induction kvs with
  | nil =>
    intro s _ _ _
    simp [puts, runOps]
  | cons p rest ih =>
    intro s hnd habs hlen
    have hp : lookupd s.order p.1 = none := habs p (List.mem_cons_self p rest)
    have hc : ¬(s.order.length : Int) ≥ s.capacity := by
      push_neg
      simp only [List.length_cons] at hlen
      push_cast at hlen ⊢
      omega
    have hstep := lruStep_put_eq (lruPut_fresh_room p.2 hp hc)
    simp only [List.map_cons, List.nodup_cons] at hnd
    have habs' : ∀ q ∈ rest, lookupd ((p.1, p.2) :: s.order) q.1 = none := by
      intro q hq
      have hne : ¬p.1 = q.1 := by
        intro hh
        exact hnd.1 (hh ▸ List.mem_map.mpr ⟨q, hq, rfl⟩)
      simp only [lookupd, if_neg hne]
      exact habs q (List.mem_cons_of_mem p hq)
    have hlen' : ((((p.1, p.2) :: s.order).length : Int) + rest.length ≤ s.capacity) := by
      simp only [List.length_cons] at hlen ⊢
      push_cast at hlen ⊢
      omega
    have hrest := ih ⟨s.capacity, (p.1, p.2) :: s.order⟩ hnd.2 habs' hlen'
    have : puts (p :: rest) = Op.put p.1 p.2 :: puts rest := by simp [puts]
    rw [this, runOps_cons_eq hstep hrest]
    simp

theorem lruRun_total : ∀ (ops : List Op) (s : LRUState),
    1 ≤ s.capacity → (runOps lruStep s ops).isSome := by
  intro ops
  induction ops with
  | nil => intro s _; rfl
  | cons op rest ih =>
    intro s h
    obtain ⟨r, hr⟩ := Option.isSome_iff_exists.mp (lruStep_total s op h)
    obtain ⟨o, s'⟩ := r
    have hcap : s'.capacity = s.capacity := lruStep_capacity hr
    have h' : 1 ≤ s'.capacity := by rw [hcap]; exact h
    obtain ⟨rf, hrf⟩ := Option.isSome_iff_exists.mp (ih s' h')
    obtain ⟨outs, sf⟩ := rf
    rw [runOps_cons_eq hr hrf]
    rfl

/-- The protection scenario of C3 needs at least two entries: from any full
cache with distinct keys holding `k` and at least one other key, a `get k`
then a fresh `put` evicts the tail (the least recently touched entry) and
keeps `k`. -/
theorem lru_get_protects {s : LRUState} {k vk j vj : Int}
    (hnd : (s.order.map Prod.fst).Nodup)
    (hfull : (s.order.length : Int) = s.capacity)
    (htwo : 2 ≤ s.capacity)
    (hk : lookupd s.order k = some vk)
    (hj : lookupd s.order j = none) :
    ∃ s2 : LRUState,
      lruPut (lruGet s k).2 j vj = some s2 ∧
      s2.order = (j, vj) :: ((lruGet s k).2.order.dropLast) ∧
      lookupd s2.order k = some vk ∧
      lookupd s2.order j = some vj := by
  have hget := lruGet_hit hk
  set s1 : LRUState := ⟨s.capacity, (k, vk) :: erased s.order k⟩ with hs1
  have hgs : (lruGet s k).2 = s1 := by rw [hget]
  have hmemk : k ∈ s.order.map Prod.fst := by
    rw [← lookupd_isSome_iff, hk]; rfl
  have hlen1 : s1.order.length = s.order.length := by
    simp only [hs1, List.length_cons]
    exact length_erased_of_mem hmemk
  have hj1 : lookupd s1.order j = none := by
    have hne : k ≠ j := by
      intro hh
      rw [← hh, hk] at hj
      exact Option.noConfusion hj
    simp only [hs1, lookupd, if_neg hne]
    rw [lookupd_erased_ne s.order (fun hh => hne hh.symm)]
    exact hj
  have hc : (s1.order.length : Int) ≥ s1.capacity := by
    simp only [hs1]
    rw [hlen1, hfull]
  have hne1 : s1.order ≠ [] := by simp [hs1]
  have hput := lruPut_fresh_evict vj hj1 hc hne1
  refine ⟨⟨s1.capacity, (j, vj) :: s1.order.dropLast⟩, by rw [hgs]; exact hput, by rw [hgs], ?_, ?_⟩
  · have hlenpos : 2 ≤ s.order.length := by
      have : (2 : Int) ≤ (s.order.length : Int) := hfull ▸ htwo
      exact_mod_cast this
    have hdrop : s1.order.dropLast = (k, vk) :: (erased s.order k).dropLast := by
      simp only [hs1]
      rw [List.dropLast_cons_of_ne_nil]
      intro hnil
      have := length_erased_of_mem hmemk
      rw [hnil] at this
      simp at this
      omega
    have hne : k ≠ j := by
      intro hh
      rw [← hh, hk] at hj
      exact Option.noConfusion hj
    simp only [lookupd, if_neg (fun hh : j = k => hne hh.symm)]
    rw [hdrop]
    simp [lookupd]
  · simp [lookupd]

/-! ### LRUCacheSimple lemmas and the simulation with LRUCache -/

section MoreDictLemmas

variable {α β : Type} [DecidableEq α]

theorem erased_append_left {l1 : List (α × β)} (l2 : List (α × β)) {k : α}
    (h : k ∈ l1.map Prod.fst) : erased (l1 ++ l2) k = erased l1 k ++ l2 := by
  induction l1 with
  | nil => simp at h
  | cons p rest ih =>
    obtain ⟨k', v'⟩ := p
    by_cases hk : k' = k
    · simp [erased, hk]
    · have : k ∈ rest.map Prod.fst := by
        rcases List.mem_cons.mp h with h1 | h2
        · exact absurd h1.symm hk
        · exact h2
      simp [erased, hk, ih this]

theorem erased_append_right {l1 : List (α × β)} (l2 : List (α × β)) {k : α}
    (h : k ∉ l1.map Prod.fst) : erased (l1 ++ l2) k = l1 ++ erased l2 k := by
  induction l1 with
  | nil => simp
  | cons p rest ih =>
    obtain ⟨k', v'⟩ := p
    simp only [List.map_cons, List.mem_cons] at h
    push_neg at h
    have hne : k' ≠ k := fun hh => h.1 hh.symm
    simp [erased, hne, ih h.2]

theorem lookupd_reverse {l : List (α × β)} (k : α)
    (hnd : (l.map Prod.fst).Nodup) : lookupd l.reverse k = lookupd l k := by
  cases hl : lookupd l k with
  | none =>
    rw [lookupd_eq_none_iff] at hl ⊢
    rw [List.map_reverse, List.mem_reverse]
    exact hl
  | some v =>
    have hnd' : (l.reverse.map Prod.fst).Nodup := by
      rw [List.map_reverse]
      exact List.nodup_reverse.mpr hnd
    exact lookupd_of_mem_nodup hnd' (List.mem_reverse.mpr (lookupd_mem hl))

theorem erased_reverse {l : List (α × β)} (k : α)
    (hnd : (l.map Prod.fst).Nodup) : erased l.reverse k = (erased l k).reverse := by
  induction l with
  | nil => rfl
  | cons p rest ih =>
    obtain ⟨k', v'⟩ := p
    simp only [List.map_cons, List.nodup_cons] at hnd
    by_cases hk : k' = k
    · subst hk
      simp only [List.reverse_cons, erased, if_pos rfl]
      rw [erased_append_right]
      · simp [erased]
      · rw [List.map_reverse, List.mem_reverse]
        exact hnd.1
    · simp only [List.reverse_cons, erased, if_neg hk, List.reverse_cons]
      by_cases hmem : k ∈ rest.map Prod.fst
      · have hrev : k ∈ (rest.reverse).map Prod.fst := by
          rw [List.map_reverse, List.mem_reverse]
          exact hmem
        rw [erased_append_left [(k', v')] hrev, ih hnd.2]
      · have hrev : k ∉ (rest.reverse).map Prod.fst := by
          rw [List.map_reverse, List.mem_reverse]
          exact hmem
        rw [erased_append_right [(k', v')] hrev]
        rw [erased_of_not_mem hmem]
        simp [erased, hk]

end MoreDictLemmas

theorem reverse_eq_getLast_cons (l : List (Int × Int)) (h : l ≠ []) :
    l.reverse = l.getLast h :: l.dropLast.reverse := by
  conv_lhs => rw [← List.dropLast_append_getLast h]
  rw [List.reverse_append]
  rfl

/-- One-step simulation: from related states (`LRUCacheSimple`'s dict is the
reverse of `LRUCache`'s recency list), both implementations step to related
states and report the same `get` result.  Needs `capacity ≥ 1`. -/
theorem lruSimStep (s : LRUState) (t : LRUSimpleState) (op : Op)
    (hcap : 1 ≤ s.capacity) (hc : t.capacity = s.capacity)
    (hrel : t.cache = s.order.reverse)
    (hnd : (s.order.map Prod.fst).Nodup)
    (hlen : (s.order.length : Int) ≤ s.capacity) :
    ∃ o s', lruStep s op = some (o, s') ∧
      lruSimpleStep t op = (o, ⟨t.capacity, s'.order.reverse⟩) := by
  cases op with
  | get k =>
    cases hl : lookupd s.order k with
    | none =>
      refine ⟨some (-1), s, ?_, ?_⟩
      · rw [lruStep_get, lruGet_miss hl]
      · have hlt : lookupd t.cache k = none := by
          rw [hrel, lookupd_reverse k hnd]
          exact hl
        simp only [lruSimpleStep, lruSimpleGet, hlt]
        rw [← hrel]
    | some v =>
      refine ⟨some v, ⟨s.capacity, (k, v) :: erased s.order k⟩, ?_, ?_⟩
      · rw [lruStep_get, lruGet_hit hl]
      · have hlt : lookupd t.cache k = some v := by
          rw [hrel, lookupd_reverse k hnd]
          exact hl
        simp only [lruSimpleStep, lruSimpleGet, hlt]
        simp only [List.reverse_cons]
        rw [hrel, erased_reverse k hnd]
  | put k v =>
    cases hl : lookupd s.order k with
    | some w =>
      refine ⟨none, ⟨s.capacity, (k, v) :: erased s.order k⟩, ?_, ?_⟩
      · exact lruStep_put_eq (lruPut_present v hl)
      · have hmem : k ∈ s.order.map Prod.fst := by
          rw [← lookupd_isSome_iff, hl]; rfl
        have hlenue : (erased s.order k).length + 1 = s.order.length :=
          length_erased_of_mem hmem
        simp only [lruSimpleStep, lruSimplePut]
        have hle : erased t.cache k ++ [(k, v)] = ((k, v) :: erased s.order k).reverse := by
          rw [hrel, erased_reverse k hnd, List.reverse_cons]
        rw [hle]
        have hlc : ((((k, v) :: erased s.order k).reverse).length : Int) ≤ t.capacity := by
          simp only [List.length_reverse, List.length_cons]
          rw [hlenue, hc]
          exact hlen
        rw [if_neg (by omega)]
    | none =>
      have hlt : lookupd t.cache k = none := by
        rw [hrel, lookupd_reverse k hnd]
        exact hl
      have habs : k ∉ t.cache.map Prod.fst := by
        rw [← lookupd_eq_none_iff]
        exact hlt
      by_cases hfull : (s.order.length : Int) ≥ s.capacity
      · have hne : s.order ≠ [] := by
          intro hnil
          rw [hnil] at hfull
          simp only [List.length_nil, Nat.cast_zero, ge_iff_le] at hfull
          omega
        refine ⟨none, ⟨s.capacity, (k, v) :: s.order.dropLast⟩, ?_, ?_⟩
        · exact lruStep_put_eq (lruPut_fresh_evict v hl hfull hne)
        · simp only [lruSimpleStep, lruSimplePut]
          rw [erased_of_not_mem habs]
          have hlc : ((t.cache ++ [(k, v)]).length : Int) > t.capacity := by
            simp only [List.length_append, List.length_cons, List.length_nil]
            rw [hrel, hc]
            simp only [List.length_reverse]
            push_cast
            omega
          rw [if_pos hlc]
          have : t.cache ++ [(k, v)] =
              s.order.getLast hne :: (s.order.dropLast.reverse ++ [(k, v)]) := by
            rw [hrel, reverse_eq_getLast_cons s.order hne]
            rfl
          rw [this]
          simp only [List.tail_cons, List.reverse_cons]
      · refine ⟨none, ⟨s.capacity, (k, v) :: s.order⟩, ?_, ?_⟩
        · exact lruStep_put_eq (lruPut_fresh_room v hl hfull)
        · simp only [lruSimpleStep, lruSimplePut]
          rw [erased_of_not_mem habs]
          have hlc : ((t.cache ++ [(k, v)]).length : Int) ≤ t.capacity := by
            simp only [List.length_append, List.length_cons, List.length_nil]
            rw [hrel, hc]
            simp only [List.length_reverse]
            push_cast at hfull ⊢
            omega
          rw [if_neg (by omega)]
          rw [List.reverse_cons, hrel]

theorem lru_sim_run : ∀ (ops : List Op) (s : LRUState) (t : LRUSimpleState),
    1 ≤ s.capacity → t.capacity = s.capacity → t.cache = s.order.reverse →
    (s.order.map Prod.fst).Nodup → (s.order.length : Int) ≤ s.capacity →
    ∃ sf, runOps lruStep s ops = some ((runOpsT lruSimpleStep t ops).1, sf) ∧
      (runOpsT lruSimpleStep t ops).2.cache = sf.order.reverse ∧
      (runOpsT lruSimpleStep t ops).2.capacity = t.capacity := by
  intro ops
  induction ops with
  | nil =>
    intro s t _ _ h3 _ _
    exact ⟨s, rfl, h3, rfl⟩
  | cons op rest ih =>
    intro s t h1 h2 h3 h4 h5
    obtain ⟨o, s', hstep, hsim⟩ := lruSimStep s t op h1 h2 h3 h4 h5
    have hcap' : s'.capacity = s.capacity := lruStep_capacity hstep
    have hnd' := lruStep_nodup hstep h4
    have hlen' : (s'.order.length : Int) ≤ s'.capacity := by
      rw [hcap']
      exact lruStep_length hstep h5
    obtain ⟨sf, hrun, hrel, hcapf⟩ := ih s' ⟨t.capacity, s'.order.reverse⟩
      (by rw [hcap']; exact h1) (by rw [hcap']; exact h2) rfl hnd' hlen'
    refine ⟨sf, ?_, ?_, ?_⟩
    · rw [runOps_cons_eq hstep hrun]
      simp [runOpsT, hsim]
    · simp only [runOpsT, hsim]
      exact hrel
    · simp only [runOpsT, hsim]
      exact hcapf

/-! ### Zero-capacity behaviour -/

theorem lfuStep_cap0 (s : LFUState) (op : Op)
    (hcap : s.capacity ≤ 0) (hkv : s.key_to_val = []) :
    lfuStep s op =
      some ((match op with | .get _ => some (-1) | .put _ _ => none), s) := by
  cases op with
  | get k =>
    simp [lfuStep, lfuGet, hkv, lookupd]
  | put k v =>
    simp [lfuStep, lfuPut, if_pos hcap]

theorem lfuRun_cap0 : ∀ (ops : List Op) (s : LFUState),
    s.capacity ≤ 0 → s.key_to_val = [] →
    ∃ outs, runOps lfuStep s ops = some (outs, s) ∧ ∀ x ∈ outs, x = -1 := by
  intro ops
  induction ops with
  | nil =>
    intro s _ _
    exact ⟨[], rfl, by simp⟩
  | cons op rest ih =>
    intro s hcap hkv
    obtain ⟨outs, hrun, hall⟩ := ih s hcap hkv
    refine ⟨(match op with | .get _ => some (-1) | .put _ _ => none).toList ++ outs,
      runOps_cons_eq (lfuStep_cap0 s op hcap hkv) hrun, ?_⟩
    intro x hx
    rcases List.mem_append.mp hx with hx1 | hx2
    · cases op with
      | get k => simpa using hx1
      | put k v => simp at hx1
    · exact hall x hx2

theorem lruSimpleStep_cap0 (s : LRUSimpleState) (op : Op)
    (hcap : s.capacity ≤ 0) (hc : s.cache = []) :
    lruSimpleStep s op =
      ((match op with | .get _ => some (-1) | .put _ _ => none), s) := by
  obtain ⟨c, cache⟩ := s
  simp only at hcap hc
  subst hc
  cases op with
  | get k =>
    simp [lruSimpleStep, lruSimpleGet, lookupd]
  | put k v =>
    have hgt : ((((erased ([] : List (Int × Int)) k) ++ [(k, v)]).length : Int)) > c := by
      simp [erased]
      omega
    simp [lruSimpleStep, lruSimplePut, erased, if_pos hgt]
    omega

theorem lruSimpleRun_cap0 : ∀ (ops : List Op) (s : LRUSimpleState),
    s.capacity ≤ 0 → s.cache = [] →
    (runOpsT lruSimpleStep s ops).2 = s ∧
      ∀ x ∈ (runOpsT lruSimpleStep s ops).1, x = -1 := by
  intro ops
  induction ops with
  | nil =>
    intro s _ _
    exact ⟨rfl, by simp [runOpsT]⟩
  | cons op rest ih =>
    intro s hcap hc
    obtain ⟨hst, hall⟩ := ih s hcap hc
    constructor
    · simp only [runOpsT, lruSimpleStep_cap0 s op hcap hc]
      exact hst
    · simp only [runOpsT, lruSimpleStep_cap0 s op hcap hc]
      intro x hx
      rcases List.mem_append.mp hx with hx1 | hx2
      · cases op with
        | get k => simpa using hx1
        | put k v => simp at hx1
      · exact hall x hx2

/-! ### The LFUCache structural and recency invariant -/

theorem lookupd_append_single_ne {α β : Type} [DecidableEq α]
    (l : List (α × β)) {k key : α} (v : β) (h : k ≠ key) :
    lookupd (l ++ [(key, v)]) k = lookupd l k := by
  induction l with
  | nil =>
    have hne : ¬key = k := fun hh => h hh.symm
    simp [lookupd, hne]
  | cons p rest ih =>
    obtain ⟨k', v'⟩ := p
    by_cases hk : k' = k <;> simp [lookupd, hk, ih]

/-- Everything the LFU code keeps in sync, together with the ghost recency
facts tying bucket order to the operation trace `ops` that produced `s`. -/
structure LFUInv (ops : List Op) (s : LFUState) : Prop where
  kv_nd : (s.key_to_val.map Prod.fst).Nodup
  kf_nd : (s.key_to_freq.map Prod.fst).Nodup
  ftk_nd : (s.freq_to_keys.map Prod.fst).Nodup
  kv_kf : ∀ k : Int, (lookupd s.key_to_val k).isSome ↔ (lookupd s.key_to_freq k).isSome
  freq_pos : ∀ (k : Int) (f : Nat), lookupd s.key_to_freq k = some f → 1 ≤ f
  bucket_mem : ∀ (k : Int) (f : Nat), lookupd s.key_to_freq k = some f →
    ∃ ks, lookupd s.freq_to_keys f = some ks ∧ k ∈ ks
  mem_bucket : ∀ (f : Nat) (ks : List Int), lookupd s.freq_to_keys f = some ks →
    ∀ k ∈ ks, lookupd s.key_to_freq k = some f
  bucket_nd : ∀ (f : Nat) (ks : List Int), lookupd s.freq_to_keys f = some ks → ks.Nodup
  min_le : ∀ (k : Int) (f : Nat), lookupd s.key_to_freq k = some f → s.min_freq ≤ f
  min_bucket : s.key_to_val ≠ [] →
    ∃ ks, lookupd s.freq_to_keys s.min_freq = some ks ∧ ks ≠ []
  touched : ∀ k : Int, (lookupd s.key_to_val k).isSome → (sinceTouch ops k).isSome
  bucket_rec : ∀ (f : Nat) (ks : List Int), lookupd s.freq_to_keys f = some ks →
    ks.Pairwise (fun a b => rankOf ops a > rankOf ops b)
  cap0 : s.capacity ≤ 0 → s.key_to_val = []

theorem lfuInv_init (capacity : Int) : LFUInv [] (lfuInit capacity) := by
  constructor <;> simp [lfuInit, lookupd]

/-- Members of any bucket are present keys. -/
theorem LFUInv.bucket_present {ops : List Op} {s : LFUState} (h : LFUInv ops s)
    {f : Nat} {ks : List Int} (hb : lookupd s.freq_to_keys f = some ks)
    {m : Int} (hm : m ∈ ks) : (lookupd s.key_to_val m).isSome :=
  (h.kv_kf m).mpr (by rw [h.mem_bucket f ks hb m hm]; rfl)

/-- Shifting the recency ranks of an untouched bucket keeps it sorted. -/
theorem pairwise_rank_shift {ops : List Op} {op : Op} {l : List Int}
    (hnt : ∀ m ∈ l, touches op m = false)
    (hsome : ∀ m ∈ l, (sinceTouch ops m).isSome)
    (hp : l.Pairwise (fun a b => rankOf ops a > rankOf ops b)) :
    l.Pairwise (fun a b => rankOf (ops ++ [op]) a > rankOf (ops ++ [op]) b) := by
  refine hp.imp_of_mem ?_
  intro a b ha hb hr
  rw [rankOf_append_not ops (hnt a ha) (hsome a ha),
    rankOf_append_not ops (hnt b hb) (hsome b hb)]
  omega

/-- Appending the just-touched key at the back of an untouched sorted bucket
keeps it sorted: the new key has rank 0, everyone else at least 1. -/
theorem pairwise_rank_append_touch {ops : List Op} {op : Op} {l : List Int} {key : Int}
    (hkey : touches op key = true)
    (hnt : ∀ m ∈ l, touches op m = false)
    (hsome : ∀ m ∈ l, (sinceTouch ops m).isSome)
    (hp : l.Pairwise (fun a b => rankOf ops a > rankOf ops b)) :
    (l ++ [key]).Pairwise
      (fun a b => rankOf (ops ++ [op]) a > rankOf (ops ++ [op]) b) := by
  rw [List.pairwise_append]
  refine ⟨pairwise_rank_shift hnt hsome hp, List.pairwise_singleton _ key, ?_⟩
  intro a ha b hb
  rw [List.mem_singleton] at hb
  subst hb
  rw [rankOf_append_touch ops hkey, rankOf_append_not ops (hnt a ha) (hsome a ha)]
  omega

/-- An operation that touches no present key (a miss `get`, or a `put` at
non-positive capacity) preserves the invariant with the state unchanged. -/
theorem LFUInv.untouched {ops : List Op} {s : LFUState} (h : LFUInv ops s) (op : Op)
    (hop : ∀ k : Int, (lookupd s.key_to_val k).isSome → touches op k = false) :
    LFUInv (ops ++ [op]) s := by
  refine ⟨h.kv_nd, h.kf_nd, h.ftk_nd, h.kv_kf, h.freq_pos, h.bucket_mem,
    h.mem_bucket, h.bucket_nd, h.min_le, h.min_bucket, ?_, ?_, h.cap0⟩
  · intro k hk
    exact sinceTouch_append_isSome_of_isSome ops (h.touched k hk)
  · intro f ks hb
    refine pairwise_rank_shift ?_ ?_ (h.bucket_rec f ks hb)
    · intro m hm
      exact hop m (h.bucket_present hb hm)
    · intro m hm
      exact h.touched m (h.bucket_present hb hm)

/-- Branch characterization of a successful `_update_freq`: `ob` is the
content of the target bucket `freq + 1` before the move (empty if the bucket
did not exist yet). -/
theorem lfuUpdateFreq_char {s : LFUState} {key : Int} {freq : Nat} {b : List Int}
    (hf : lookupd s.key_to_freq key = some freq)
    (hb : lookupd s.freq_to_keys freq = some b)
    (hmem : key ∈ b)
    (hnot : ∀ b2, lookupd s.freq_to_keys (freq + 1) = some b2 → key ∉ b2) :
    ∃ ob : List Int,
      (lookupd s.freq_to_keys (freq + 1) = some ob ∨
        (lookupd s.freq_to_keys (freq + 1) = none ∧ ob = [])) ∧
      lfuUpdateFreq s key = some ⟨s.capacity,
        (if eraseKey b key = [] ∧ s.min_freq = freq then freq + 1 else s.min_freq),
        s.key_to_val,
        setd s.key_to_freq key (freq + 1),
        setd (setd s.freq_to_keys freq (eraseKey b key)) (freq + 1) (ob ++ [key])⟩ := by
  have hne : freq + 1 ≠ freq := by omega
  have hlift : lookupd (setd s.freq_to_keys freq (eraseKey b key)) (freq + 1) =
      lookupd s.freq_to_keys (freq + 1) := lookupd_setd_ne _ _ hne
  unfold lfuUpdateFreq
  rw [hf]
  dsimp only
  rw [hb]
  dsimp only
  rw [if_pos hmem]
  cases hb2 : lookupd s.freq_to_keys (freq + 1) with
  | none =>
    refine ⟨[], Or.inr ⟨rfl, rfl⟩, ?_⟩
    rw [hlift, hb2]
    rfl
  | some b2 =>
    refine ⟨b2, Or.inl rfl, ?_⟩
    rw [hlift, hb2]
    dsimp only
    unfold bucketAdd
    rw [if_neg (hnot b2 hb2)]

/-- A successful `_update_freq` on a present key preserves the invariant
when the appended operation `op` touches exactly that key. -/
theorem lfuUpdateFreq_inv {ops : List Op} {s : LFUState} (h : LFUInv ops s)
    {op : Op} {key : Int}
    (hpres : (lookupd s.key_to_val key).isSome)
    (htouch : touches op key = true)
    (hothers : ∀ a : Int, a ≠ key → touches op a = false) :
    ∃ s', lfuUpdateFreq s key = some s' ∧ LFUInv (ops ++ [op]) s' ∧
      s'.key_to_val = s.key_to_val ∧ s'.capacity = s.capacity := by
  obtain ⟨freq, hf⟩ := Option.isSome_iff_exists.mp ((h.kv_kf key).mp hpres)
  obtain ⟨b, hb, hmemb⟩ := h.bucket_mem key freq hf
  have hnot : ∀ b2, lookupd s.freq_to_keys (freq + 1) = some b2 → key ∉ b2 := by
    intro b2 hb2 hkey2
    have hcontr := h.mem_bucket (freq + 1) b2 hb2 key hkey2
    rw [hf] at hcontr
    simp only [Option.some.injEq] at hcontr
    omega
  obtain ⟨ob, hoborig, hchar⟩ := lfuUpdateFreq_char hf hb hmemb hnot
  have hbnd : b.Nodup := h.bucket_nd freq b hb
  have hmem_b : ∀ m ∈ b, lookupd s.key_to_freq m = some freq := h.mem_bucket freq b hb
  have hobmem : ∀ m ∈ ob, lookupd s.key_to_freq m = some (freq + 1) := by
    rcases hoborig with hsome | ⟨-, rfl⟩
    · exact h.mem_bucket (freq + 1) ob hsome
    · intro m hm
      simp at hm
  have hobnd : ob.Nodup := by
    rcases hoborig with hsome | ⟨-, rfl⟩
    · exact h.bucket_nd (freq + 1) ob hsome
    · exact List.nodup_nil
  have hobrec : ob.Pairwise (fun a b => rankOf ops a > rankOf ops b) := by
    rcases hoborig with hsome | ⟨-, rfl⟩
    · exact h.bucket_rec (freq + 1) ob hsome
    · exact List.Pairwise.nil
  have hkeyob : key ∉ ob := by
    intro hk
    have := hobmem key hk
    rw [hf] at this
    simp only [Option.some.injEq] at this
    omega
  have hobpres : ∀ m ∈ ob, (lookupd s.key_to_val m).isSome := by
    intro m hm
    exact (h.kv_kf m).mpr (by rw [hobmem m hm]; rfl)
  have hfne : freq ≠ freq + 1 := by omega
  have hkeyb' : key ∉ eraseKey b key := not_mem_eraseKey_self key hbnd
  have hb'sub : ∀ m ∈ eraseKey b key, m ∈ b ∧ m ≠ key := by
    intro m hm
    refine ⟨(eraseKey_sublist b key).subset hm, ?_⟩
    intro hh
    exact hkeyb' (hh ▸ hm)
  have hkf'_key : lookupd (setd s.key_to_freq key (freq + 1)) key = some (freq + 1) :=
    lookupd_setd_self _ _ _
  have hkf'_ne : ∀ k : Int, k ≠ key →
      lookupd (setd s.key_to_freq key (freq + 1)) k = lookupd s.key_to_freq k :=
    fun k hk => lookupd_setd_ne _ _ hk
  have hftk2_succ :
      lookupd (setd (setd s.freq_to_keys freq (eraseKey b key)) (freq + 1) (ob ++ [key]))
        (freq + 1) = some (ob ++ [key]) := lookupd_setd_self _ _ _
  have hftk2_freq :
      lookupd (setd (setd s.freq_to_keys freq (eraseKey b key)) (freq + 1) (ob ++ [key]))
        freq = some (eraseKey b key) := by
    rw [lookupd_setd_ne _ _ hfne]
    exact lookupd_setd_self _ _ _
  have hftk2_other : ∀ g : Nat, g ≠ freq → g ≠ freq + 1 →
      lookupd (setd (setd s.freq_to_keys freq (eraseKey b key)) (freq + 1) (ob ++ [key]))
        g = lookupd s.freq_to_keys g := by
    intro g h1 h2
    rw [lookupd_setd_ne _ _ h2, lookupd_setd_ne _ _ h1]
  have hpresb : ∀ m ∈ b, (lookupd s.key_to_val m).isSome := by
    intro m hm
    exact (h.kv_kf m).mpr (by rw [hmem_b m hm]; rfl)
  refine ⟨_, hchar, ?_, rfl, rfl⟩
  constructor
  case kv_nd => exact h.kv_nd
  case kf_nd => exact nodup_keys_setd _ h.kf_nd
  case ftk_nd => exact nodup_keys_setd _ (nodup_keys_setd _ h.ftk_nd)
  case kv_kf =>
    intro k
    by_cases hk : k = key
    · subst hk
      simp [hpres, hkf'_key]
    · rw [hkf'_ne k hk]
      exact h.kv_kf k
  case freq_pos =>
    intro k f hkf
    by_cases hk : k = key
    · subst hk
      rw [hkf'_key] at hkf
      simp only [Option.some.injEq] at hkf
      omega
    · rw [hkf'_ne k hk] at hkf
      exact h.freq_pos k f hkf
  case bucket_mem =>
    intro k f hkf
    by_cases hk : k = key
    · subst hk
      rw [hkf'_key] at hkf
      simp only [Option.some.injEq] at hkf
      subst hkf
      exact ⟨ob ++ [k], hftk2_succ, by simp⟩
    · rw [hkf'_ne k hk] at hkf
      by_cases hff : f = freq
      · subst hff
        obtain ⟨ks, hks, hkmem⟩ := h.bucket_mem k f hkf
        rw [hb] at hks
        simp only [Option.some.injEq] at hks
        subst hks
        exact ⟨eraseKey b key, hftk2_freq, mem_eraseKey_of_mem hkmem hk⟩
      · by_cases hfs : f = freq + 1
        · subst hfs
          obtain ⟨ks, hks, hkmem⟩ := h.bucket_mem k _ hkf
          rcases hoborig with hsome | ⟨hnone, -⟩
          · rw [hsome] at hks
            simp only [Option.some.injEq] at hks
            subst hks
            exact ⟨ob ++ [key], hftk2_succ, by simp [hkmem]⟩
          · rw [hnone] at hks
            exact absurd hks (by simp)
        · obtain ⟨ks, hks, hkmem⟩ := h.bucket_mem k f hkf
          exact ⟨ks, by rw [hftk2_other f hff hfs]; exact hks, hkmem⟩
  case mem_bucket =>
    intro f ks hks k hkmem
    by_cases hfs : f = freq + 1
    · subst hfs
      rw [hftk2_succ] at hks
      simp only [Option.some.injEq] at hks
      subst hks
      rcases List.mem_append.mp hkmem with hko | hkk
      · have hkne : k ≠ key := fun hh => hkeyob (hh ▸ hko)
        rw [hkf'_ne k hkne]
        exact hobmem k hko
      · rw [List.mem_singleton] at hkk
        subst hkk
        exact hkf'_key
    · by_cases hff : f = freq
      · subst hff
        rw [hftk2_freq] at hks
        simp only [Option.some.injEq] at hks
        subst hks
        obtain ⟨hkb, hkne⟩ := hb'sub k hkmem
        rw [hkf'_ne k hkne]
        exact hmem_b k hkb
      · rw [hftk2_other f hff hfs] at hks
        have hold := h.mem_bucket f ks hks k hkmem
        have hkne : k ≠ key := by
          intro hh
          subst hh
          rw [hf] at hold
          simp only [Option.some.injEq] at hold
          exact hff hold.symm
        rw [hkf'_ne k hkne]
        exact hold
  case bucket_nd =>
    intro f ks hks
    by_cases hfs : f = freq + 1
    · subst hfs
      rw [hftk2_succ] at hks
      simp only [Option.some.injEq] at hks
      subst hks
      rw [List.nodup_append]
      refine ⟨hobnd, List.nodup_singleton key, ?_⟩
      intro a ha hak
      rw [List.mem_singleton] at hak
      exact hkeyob (hak ▸ ha)
    · by_cases hff : f = freq
      · subst hff
        rw [hftk2_freq] at hks
        simp only [Option.some.injEq] at hks
        subst hks
        exact (eraseKey_sublist b key).nodup hbnd
      · rw [hftk2_other f hff hfs] at hks
        exact h.bucket_nd f ks hks
  case min_le =>
    intro k f hkf
    dsimp only
    by_cases hc : eraseKey b key = [] ∧ s.min_freq = freq
    · rw [if_pos hc]
      by_cases hk : k = key
      · subst hk
        rw [hkf'_key] at hkf
        simp only [Option.some.injEq] at hkf
        omega
      · rw [hkf'_ne k hk] at hkf
        have hle := h.min_le k f hkf
        rw [hc.2] at hle
        rcases Nat.lt_or_ge freq f with hlt | hge
        · omega
        · have hfeq : f = freq := by omega
          subst hfeq
          obtain ⟨ks, hks, hkmem⟩ := h.bucket_mem k f hkf
          rw [hb] at hks
          simp only [Option.some.injEq] at hks
          subst hks
          have := mem_eraseKey_of_mem hkmem hk
          rw [hc.1] at this
          simp at this
    · rw [if_neg hc]
      by_cases hk : k = key
      · subst hk
        rw [hkf'_key] at hkf
        simp only [Option.some.injEq] at hkf
        have := h.min_le _ freq hf
        omega
      · rw [hkf'_ne k hk] at hkf
        exact h.min_le k f hkf
  case min_bucket =>
    intro hne
    by_cases hc : eraseKey b key = [] ∧ s.min_freq = freq
    · rw [if_pos hc]
      exact ⟨ob ++ [key], hftk2_succ, by simp⟩
    · rw [if_neg hc]
      by_cases hm1 : s.min_freq = freq + 1
      · rw [hm1]
        exact ⟨ob ++ [key], hftk2_succ, by simp⟩
      · by_cases hm2 : s.min_freq = freq
        · have hb'ne : eraseKey b key ≠ [] := fun hh => hc ⟨hh, hm2⟩
          rw [hm2]
          exact ⟨eraseKey b key, hftk2_freq, hb'ne⟩
        · obtain ⟨ks, hks, hksne⟩ := h.min_bucket hne
          exact ⟨ks, by rw [hftk2_other _ hm2 hm1]; exact hks, hksne⟩
  case touched =>
    intro k hk
    by_cases hkk : k = key
    · subst hkk
      exact sinceTouch_append_isSome_of_touch ops htouch
    · exact sinceTouch_append_isSome_of_isSome ops (h.touched k hk)
  case bucket_rec =>
    intro f ks hks
    by_cases hfs : f = freq + 1
    · subst hfs
      rw [hftk2_succ] at hks
      simp only [Option.some.injEq] at hks
      subst hks
      refine pairwise_rank_append_touch htouch ?_ ?_ hobrec
      · intro m hm
        exact hothers m (fun hh => hkeyob (hh ▸ hm))
      · intro m hm
        exact h.touched m (hobpres m hm)
    · by_cases hff : f = freq
      · subst hff
        rw [hftk2_freq] at hks
        simp only [Option.some.injEq] at hks
        subst hks
        refine pairwise_rank_shift ?_ ?_
          (List.Pairwise.sublist (eraseKey_sublist b key) (h.bucket_rec _ b hb))
        · intro m hm
          exact hothers m (hb'sub m hm).2
        · intro m hm
          exact h.touched m (hpresb m (hb'sub m hm).1)
      · rw [hftk2_other f hff hfs] at hks
        refine pairwise_rank_shift ?_ ?_ (h.bucket_rec f ks hks)
        · intro m hm
          have hold := h.mem_bucket f ks hks m hm
          refine hothers m ?_
          intro hh
          subst hh
          rw [hf] at hold
          simp only [Option.some.injEq] at hold
          exact hff hold.symm
        · intro m hm
          exact h.touched m (h.bucket_present hks hm)
  case cap0 =>
    intro hcap
    exact h.cap0 hcap

/-- The part of `LFUInv` that survives an eviction (no `min_freq` facts):
what the subsequent fresh insert needs. -/
structure LFUPre (ops : List Op) (s : LFUState) : Prop where
  kv_nd : (s.key_to_val.map Prod.fst).Nodup
  kf_nd : (s.key_to_freq.map Prod.fst).Nodup
  ftk_nd : (s.freq_to_keys.map Prod.fst).Nodup
  kv_kf : ∀ k : Int, (lookupd s.key_to_val k).isSome ↔ (lookupd s.key_to_freq k).isSome
  freq_pos : ∀ (k : Int) (f : Nat), lookupd s.key_to_freq k = some f → 1 ≤ f
  bucket_mem : ∀ (k : Int) (f : Nat), lookupd s.key_to_freq k = some f →
    ∃ ks, lookupd s.freq_to_keys f = some ks ∧ k ∈ ks
  mem_bucket : ∀ (f : Nat) (ks : List Int), lookupd s.freq_to_keys f = some ks →
    ∀ k ∈ ks, lookupd s.key_to_freq k = some f
  bucket_nd : ∀ (f : Nat) (ks : List Int), lookupd s.freq_to_keys f = some ks → ks.Nodup
  touched : ∀ k : Int, (lookupd s.key_to_val k).isSome → (sinceTouch ops k).isSome
  bucket_rec : ∀ (f : Nat) (ks : List Int), lookupd s.freq_to_keys f = some ks →
    ks.Pairwise (fun a b => rankOf ops a > rankOf ops b)

theorem LFUInv.toPre {ops : List Op} {s : LFUState} (h : LFUInv ops s) : LFUPre ops s :=
  ⟨h.kv_nd, h.kf_nd, h.ftk_nd, h.kv_kf, h.freq_pos, h.bucket_mem, h.mem_bucket,
    h.bucket_nd, h.touched, h.bucket_rec⟩

theorem LFUPre.mem_present {ops : List Op} {s : LFUState} (h : LFUPre ops s)
    {f : Nat} {ks : List Int} (hb : lookupd s.freq_to_keys f = some ks)
    {m : Int} (hm : m ∈ ks) : (lookupd s.key_to_val m).isSome :=
  (h.kv_kf m).mpr (by rw [h.mem_bucket f ks hb m hm]; rfl)

/-- Replacing the value of a present key (the first half of a present-key
`put`) preserves the invariant without touching the trace. -/
theorem LFUInv.setd_val {ops : List Op} {s : LFUState} (h : LFUInv ops s)
    {key : Int} (value : Int) (hpres : (lookupd s.key_to_val key).isSome) :
    LFUInv ops ⟨s.capacity, s.min_freq, setd s.key_to_val key value,
      s.key_to_freq, s.freq_to_keys⟩ := by
  have hkvne : s.key_to_val ≠ [] := by
    intro hnil
    rw [hnil] at hpres
    simp [lookupd] at hpres
  constructor
  case kv_nd =>
    dsimp only
    have hmem : key ∈ s.key_to_val.map Prod.fst := by
      rw [← lookupd_isSome_iff]
      exact hpres
    rw [keys_setd_of_mem value hmem]
    exact h.kv_nd
  case kf_nd => exact h.kf_nd
  case ftk_nd => exact h.ftk_nd
  case kv_kf =>
    intro k
    dsimp only
    by_cases hk : k = key
    · subst hk
      rw [lookupd_setd_self]
      simp only [Option.isSome_some, true_iff]
      exact (h.kv_kf k).mp hpres
    · rw [lookupd_setd_ne _ _ hk]
      exact h.kv_kf k
  case freq_pos => exact h.freq_pos
  case bucket_mem => exact h.bucket_mem
  case mem_bucket => exact h.mem_bucket
  case bucket_nd => exact h.bucket_nd
  case min_le => exact h.min_le
  case min_bucket =>
    intro _
    exact h.min_bucket hkvne
  case touched =>
    intro k hk
    dsimp only at hk
    by_cases hkk : k = key
    · subst hkk
      exact h.touched k hpres
    · rw [lookupd_setd_ne _ _ hkk] at hk
      exact h.touched k hk
  case bucket_rec => exact h.bucket_rec
  case cap0 =>
    intro hcap
    exact absurd hpres (by rw [h.cap0 hcap]; simp [lookupd])

/-- Branch characterization of `LFUCache.put` on a fresh key with room. -/
theorem lfuPut_fresh_room_char {s : LFUState} {key : Int} (value : Int)
    (hcap : ¬s.capacity ≤ 0)
    (habs : lookupd s.key_to_val key = none)
    (hroom : ¬(s.key_to_val.length : Int) ≥ s.capacity) :
    lfuPut s key value = some ⟨s.capacity, 1, setd s.key_to_val key value,
      setd s.key_to_freq key 1,
      (match lookupd s.freq_to_keys 1 with
       | none => setd s.freq_to_keys 1 [key]
       | some b => setd s.freq_to_keys 1 (bucketAdd b key))⟩ := by
  unfold lfuPut
  rw [if_neg hcap, habs]
  dsimp only
  rw [if_neg hroom]

/-- Branch characterization of `LFUCache.put` on a fresh key at capacity:
the head of the `min_freq` bucket is evicted, then the key is inserted. -/
theorem lfuPut_fresh_evict_char {s : LFUState} {key : Int} (value : Int)
    {evictKey : Int} {rest : List Int}
    (hcap : ¬s.capacity ≤ 0)
    (habs : lookupd s.key_to_val key = none)
    (hfull : (s.key_to_val.length : Int) ≥ s.capacity)
    (hbucket : lookupd s.freq_to_keys s.min_freq = some (evictKey :: rest))
    (hev : (lookupd s.key_to_val evictKey).isSome)
    (hef : (lookupd s.key_to_freq evictKey).isSome) :
    lfuPut s key value = some ⟨s.capacity, 1,
      setd (erased s.key_to_val evictKey) key value,
      setd (erased s.key_to_freq evictKey) key 1,
      (match lookupd (setd s.freq_to_keys s.min_freq rest) 1 with
       | none => setd (setd s.freq_to_keys s.min_freq rest) 1 [key]
       | some b => setd (setd s.freq_to_keys s.min_freq rest) 1 (bucketAdd b key))⟩ := by
  obtain ⟨w, hw⟩ := Option.isSome_iff_exists.mp hev
  obtain ⟨f, hfq⟩ := Option.isSome_iff_exists.mp hef
  unfold lfuPut
  rw [if_neg hcap, habs]
  dsimp only
  rw [if_pos hfull, hbucket]
  dsimp only
  rw [hw, hfq]

/-- Inserting a fresh key with frequency 1 (the tail of both fresh-`put`
branches) restores the full invariant from the pre-invariant. -/
theorem lfu_insert_inv {ops : List Op} {s : LFUState} (op : Op) {key : Int}
    (value : Int) (hpre : LFUPre ops s)
    (hcap : ¬s.capacity ≤ 0)
    (habs : lookupd s.key_to_val key = none)
    (htouch : touches op key = true)
    (hothers : ∀ a : Int, a ≠ key → touches op a = false) :
    LFUInv (ops ++ [op]) ⟨s.capacity, 1, setd s.key_to_val key value,
      setd s.key_to_freq key 1,
      (match lookupd s.freq_to_keys 1 with
       | none => setd s.freq_to_keys 1 [key]
       | some b => setd s.freq_to_keys 1 (bucketAdd b key))⟩ := by
  have hkvabs : key ∉ s.key_to_val.map Prod.fst := by
    rw [← lookupd_eq_none_iff]
    exact habs
  have hkfnone : lookupd s.key_to_freq key = none := by
    cases hkf : lookupd s.key_to_freq key with
    | none => rfl
    | some f =>
      exfalso
      have := (hpre.kv_kf key).mpr (by rw [hkf]; rfl)
      rw [habs] at this
      exact Bool.noConfusion this
  have hnotbucket : ∀ (f : Nat) (ks : List Int),
      lookupd s.freq_to_keys f = some ks → key ∉ ks := by
    intro f ks hks hmem
    have := hpre.mem_bucket f ks hks key hmem
    rw [hkfnone] at this
    exact Option.noConfusion this
  obtain ⟨ob, hoborig, hmatch⟩ :
      ∃ ob : List Int,
        (lookupd s.freq_to_keys 1 = some ob ∨
          (lookupd s.freq_to_keys 1 = none ∧ ob = [])) ∧
        (match lookupd s.freq_to_keys 1 with
         | none => setd s.freq_to_keys 1 [key]
         | some b => setd s.freq_to_keys 1 (bucketAdd b key)) =
          setd s.freq_to_keys 1 (ob ++ [key]) := by
    cases hb1 : lookupd s.freq_to_keys 1 with
    | none => exact ⟨[], Or.inr ⟨rfl, rfl⟩, rfl⟩
    | some b =>
      refine ⟨b, Or.inl rfl, ?_⟩
      dsimp only
      unfold bucketAdd
      rw [if_neg (hnotbucket 1 b hb1)]
  rw [hmatch]
  have hobmem : ∀ m ∈ ob, lookupd s.key_to_freq m = some 1 := by
    rcases hoborig with hsome | ⟨-, rfl⟩
    · exact hpre.mem_bucket 1 ob hsome
    · intro m hm
      simp at hm
  have hobnd : ob.Nodup := by
    rcases hoborig with hsome | ⟨-, rfl⟩
    · exact hpre.bucket_nd 1 ob hsome
    · exact List.nodup_nil
  have hobrec : ob.Pairwise (fun a b => rankOf ops a > rankOf ops b) := by
    rcases hoborig with hsome | ⟨-, rfl⟩
    · exact hpre.bucket_rec 1 ob hsome
    · exact List.Pairwise.nil
  have hobpres : ∀ m ∈ ob, (lookupd s.key_to_val m).isSome := by
    intro m hm
    exact (hpre.kv_kf m).mpr (by rw [hobmem m hm]; rfl)
  have hkeyob : key ∉ ob := by
    intro hk
    have := hobmem key hk
    rw [hkfnone] at this
    exact Option.noConfusion this
  have hkv' : setd s.key_to_val key value = s.key_to_val ++ [(key, value)] :=
    setd_eq_append value hkvabs
  have hftk_succ : lookupd (setd s.freq_to_keys 1 (ob ++ [key])) 1 =
      some (ob ++ [key]) := lookupd_setd_self _ _ _
  have hftk_other : ∀ g : Nat, g ≠ 1 →
      lookupd (setd s.freq_to_keys 1 (ob ++ [key])) g = lookupd s.freq_to_keys g :=
    fun g hg => lookupd_setd_ne _ _ hg
  constructor
  case kv_nd => exact nodup_keys_setd _ hpre.kv_nd
  case kf_nd => exact nodup_keys_setd _ hpre.kf_nd
  case ftk_nd => exact nodup_keys_setd _ hpre.ftk_nd
  case kv_kf =>
    intro k
    dsimp only
    by_cases hk : k = key
    · subst hk
      rw [lookupd_setd_self, lookupd_setd_self]
      simp
    · rw [lookupd_setd_ne _ _ hk, lookupd_setd_ne _ _ hk]
      exact hpre.kv_kf k
  case freq_pos =>
    intro k f hkf
    dsimp only at hkf
    by_cases hk : k = key
    · subst hk
      rw [lookupd_setd_self] at hkf
      simp only [Option.some.injEq] at hkf
      omega
    · rw [lookupd_setd_ne _ _ hk] at hkf
      exact hpre.freq_pos k f hkf
  case bucket_mem =>
    intro k f hkf
    dsimp only at hkf ⊢
    by_cases hk : k = key
    · subst hk
      rw [lookupd_setd_self] at hkf
      simp only [Option.some.injEq] at hkf
      subst hkf
      exact ⟨ob ++ [k], hftk_succ, by simp⟩
    · rw [lookupd_setd_ne _ _ hk] at hkf
      by_cases hf1 : f = 1
      · subst hf1
        obtain ⟨ks, hks, hkmem⟩ := hpre.bucket_mem k 1 hkf
        rcases hoborig with hsome | ⟨hnone, -⟩
        · rw [hsome] at hks
          simp only [Option.some.injEq] at hks
          subst hks
          exact ⟨ob ++ [key], hftk_succ, by simp [hkmem]⟩
        · rw [hnone] at hks
          exact absurd hks (by simp)
      · obtain ⟨ks, hks, hkmem⟩ := hpre.bucket_mem k f hkf
        exact ⟨ks, by rw [hftk_other f hf1]; exact hks, hkmem⟩
  case mem_bucket =>
    intro f ks hks k hkmem
    dsimp only at hks ⊢
    by_cases hf1 : f = 1
    · subst hf1
      rw [hftk_succ] at hks
      simp only [Option.some.injEq] at hks
      subst hks
      rcases List.mem_append.mp hkmem with hko | hkk
      · have hkne : k ≠ key := fun hh => hkeyob (hh ▸ hko)
        rw [lookupd_setd_ne _ _ hkne]
        exact hobmem k hko
      · rw [List.mem_singleton] at hkk
        subst hkk
        exact lookupd_setd_self _ _ _
    · rw [hftk_other f hf1] at hks
      have hold := hpre.mem_bucket f ks hks k hkmem
      have hkne : k ≠ key := by
        intro hh
        subst hh
        rw [hkfnone] at hold
        exact Option.noConfusion hold
      rw [lookupd_setd_ne _ _ hkne]
      exact hold
  case bucket_nd =>
    intro f ks hks
    dsimp only at hks
    by_cases hf1 : f = 1
    · subst hf1
      rw [hftk_succ] at hks
      simp only [Option.some.injEq] at hks
      subst hks
      rw [List.nodup_append]
      refine ⟨hobnd, List.nodup_singleton key, ?_⟩
      intro a ha hak
      rw [List.mem_singleton] at hak
      exact hkeyob (hak ▸ ha)
    · rw [hftk_other f hf1] at hks
      exact hpre.bucket_nd f ks hks
  case min_le =>
    intro k f hkf
    dsimp only at hkf ⊢
    by_cases hk : k = key
    · subst hk
      rw [lookupd_setd_self] at hkf
      simp only [Option.some.injEq] at hkf
      omega
    · rw [lookupd_setd_ne _ _ hk] at hkf
      exact hpre.freq_pos k f hkf
  case min_bucket =>
    intro _
    dsimp only
    exact ⟨ob ++ [key], hftk_succ, by simp⟩
  case touched =>
    intro k hk
    dsimp only at hk
    by_cases hkk : k = key
    · subst hkk
      exact sinceTouch_append_isSome_of_touch ops htouch
    · rw [lookupd_setd_ne _ _ hkk] at hk
      exact sinceTouch_append_isSome_of_isSome ops (hpre.touched k hk)
  case bucket_rec =>
    intro f ks hks
    dsimp only at hks
    by_cases hf1 : f = 1
    · subst hf1
      rw [hftk_succ] at hks
      simp only [Option.some.injEq] at hks
      subst hks
      refine pairwise_rank_append_touch htouch ?_ ?_ hobrec
      · intro m hm
        exact hothers m (fun hh => hkeyob (hh ▸ hm))
      · intro m hm
        exact hpre.touched m (hobpres m hm)
    · rw [hftk_other f hf1] at hks
      refine pairwise_rank_shift ?_ ?_ (hpre.bucket_rec f ks hks)
      · intro m hm
        have hold := hpre.mem_bucket f ks hks m hm
        refine hothers m ?_
        intro hh
        subst hh
        rw [hkfnone] at hold
        exact Option.noConfusion hold
      · intro m hm
        exact hpre.touched m (hpre.mem_present hks hm)
  case cap0 =>
    intro hcap'
    exact absurd hcap' hcap

/-- Evicting the head of the `min_freq` bucket keeps the pre-invariant. -/
theorem lfu_evict_pre {ops : List Op} {s : LFUState} (h : LFUInv ops s)
    {evictKey : Int} {rest : List Int}
    (hbucket : lookupd s.freq_to_keys s.min_freq = some (evictKey :: rest)) :
    LFUPre ops ⟨s.capacity, s.min_freq, erased s.key_to_val evictKey,
      erased s.key_to_freq evictKey, setd s.freq_to_keys s.min_freq rest⟩ := by
  have hkfe : lookupd s.key_to_freq evictKey = some s.min_freq :=
    h.mem_bucket s.min_freq _ hbucket evictKey (List.mem_cons_self _ _)
  have hconsnd : (evictKey :: rest).Nodup := h.bucket_nd s.min_freq _ hbucket
  have hrestnd : rest.Nodup := by
    rw [List.nodup_cons] at hconsnd
    exact hconsnd.2
  have hnotrest : evictKey ∉ rest := by
    rw [List.nodup_cons] at hconsnd
    exact hconsnd.1
  have hftk1_min : lookupd (setd s.freq_to_keys s.min_freq rest) s.min_freq =
      some rest := lookupd_setd_self _ _ _
  have hftk1_other : ∀ g : Nat, g ≠ s.min_freq →
      lookupd (setd s.freq_to_keys s.min_freq rest) g = lookupd s.freq_to_keys g :=
    fun g hg => lookupd_setd_ne _ _ hg
  have hkv1_e : lookupd (erased s.key_to_val evictKey) evictKey = none :=
    lookupd_erased_self evictKey h.kv_nd
  have hkf1_e : lookupd (erased s.key_to_freq evictKey) evictKey = none :=
    lookupd_erased_self evictKey h.kf_nd
  constructor
  case kv_nd => exact nodup_keys_erased _ h.kv_nd
  case kf_nd => exact nodup_keys_erased _ h.kf_nd
  case ftk_nd => exact nodup_keys_setd _ h.ftk_nd
  case kv_kf =>
    intro k
    dsimp only
    by_cases hk : k = evictKey
    · subst hk
      rw [hkv1_e, hkf1_e]
      rfl
    · rw [lookupd_erased_ne _ hk, lookupd_erased_ne _ hk]
      exact h.kv_kf k
  case freq_pos =>
    intro k f hkf
    dsimp only at hkf
    by_cases hk : k = evictKey
    · subst hk
      rw [hkf1_e] at hkf
      exact Option.noConfusion hkf
    · rw [lookupd_erased_ne _ hk] at hkf
      exact h.freq_pos k f hkf
  case bucket_mem =>
    intro k f hkf
    dsimp only at hkf ⊢
    by_cases hk : k = evictKey
    · subst hk
      rw [hkf1_e] at hkf
      exact Option.noConfusion hkf
    · rw [lookupd_erased_ne _ hk] at hkf
      obtain ⟨ks, hks, hkmem⟩ := h.bucket_mem k f hkf
      by_cases hfm : f = s.min_freq
      · subst hfm
        rw [hbucket] at hks
        simp only [Option.some.injEq] at hks
        subst hks
        rcases List.mem_cons.mp hkmem with h1 | h2
        · exact absurd h1 hk
        · exact ⟨rest, hftk1_min, h2⟩
      · exact ⟨ks, by rw [hftk1_other f hfm]; exact hks, hkmem⟩
  case mem_bucket =>
    intro f ks hks k hkmem
    dsimp only at hks ⊢
    by_cases hfm : f = s.min_freq
    · subst hfm
      rw [hftk1_min] at hks
      simp only [Option.some.injEq] at hks
      subst hks
      have hkne : k ≠ evictKey := fun hh => hnotrest (hh ▸ hkmem)
      rw [lookupd_erased_ne _ hkne]
      exact h.mem_bucket s.min_freq _ hbucket k (List.mem_cons_of_mem _ hkmem)
    · rw [hftk1_other f hfm] at hks
      have hold := h.mem_bucket f ks hks k hkmem
      have hkne : k ≠ evictKey := by
        intro hh
        subst hh
        rw [hkfe] at hold
        simp only [Option.some.injEq] at hold
        exact hfm hold.symm
      rw [lookupd_erased_ne _ hkne]
      exact hold
  case bucket_nd =>
    intro f ks hks
    dsimp only at hks
    by_cases hfm : f = s.min_freq
    · subst hfm
      rw [hftk1_min] at hks
      simp only [Option.some.injEq] at hks
      subst hks
      exact hrestnd
    · rw [hftk1_other f hfm] at hks
      exact h.bucket_nd f ks hks
  case touched =>
    intro k hk
    dsimp only at hk
    by_cases hkk : k = evictKey
    · subst hkk
      rw [hkv1_e] at hk
      exact Bool.noConfusion hk
    · rw [lookupd_erased_ne _ hkk] at hk
      exact h.touched k hk
  case bucket_rec =>
    intro f ks hks
    dsimp only at hks
    by_cases hfm : f = s.min_freq
    · subst hfm
      rw [hftk1_min] at hks
      simp only [Option.some.injEq] at hks
      subst hks
      exact (h.bucket_rec s.min_freq _ hbucket).of_cons
    · rw [hftk1_other f hfm] at hks
      exact h.bucket_rec f ks hks

theorem touches_self_get (k : Int) : touches (Op.get k) k = true := by
  simp [touches]

theorem touches_self_put (k v : Int) : touches (Op.put k v) k = true := by
  simp [touches]

theorem touches_ne_get {k a : Int} (h : a ≠ k) : touches (Op.get k) a = false := by
  simp only [touches, decide_eq_false_iff_not]
  exact fun hh => h hh.symm

theorem touches_ne_put {k a : Int} (v : Int) (h : a ≠ k) :
    touches (Op.put k v) a = false := by
  simp only [touches, decide_eq_false_iff_not]
  exact fun hh => h hh.symm

/-- Every LFU operation from an invariant state succeeds and preserves the
invariant: the totality and safety core of the LFU cache. -/
theorem lfuStep_inv (ops : List Op) (s : LFUState) (op : Op) (h : LFUInv ops s) :
    ∃ o s', lfuStep s op = some (o, s') ∧ LFUInv (ops ++ [op]) s' := by
  cases op with
  | get key =>
    cases hl : lookupd s.key_to_val key with
    | none =>
      refine ⟨some (-1), s, ?_, ?_⟩
      · simp only [lfuStep]
        unfold lfuGet
        rw [hl]
        rfl
      · apply h.untouched
        intro k hk
        have hkne : k ≠ key := by
          intro hh
          subst hh
          rw [hl] at hk
          exact Bool.noConfusion hk
        exact touches_ne_get hkne
    | some v =>
      have hpres : (lookupd s.key_to_val key).isSome := by rw [hl]; rfl
      obtain ⟨s', hupd, hinv, hkv, -⟩ :=
        lfuUpdateFreq_inv h hpres (touches_self_get key)
          (fun a ha => touches_ne_get ha)
      refine ⟨some v, s', ?_, hinv⟩
      simp only [lfuStep]
      unfold lfuGet
      rw [hl]
      dsimp only
      rw [hupd]
      dsimp only
      rw [hkv, hl]
      rfl
  | put key v =>
    by_cases hcap : s.capacity ≤ 0
    · refine ⟨none, s, ?_, ?_⟩
      · simp only [lfuStep]
        unfold lfuPut
        rw [if_pos hcap]
        rfl
      · apply h.untouched
        intro k hk
        rw [h.cap0 hcap] at hk
        simp [lookupd] at hk
    · cases hl : lookupd s.key_to_val key with
      | some w =>
        have hpres : (lookupd s.key_to_val key).isSome := by rw [hl]; rfl
        have h1 := h.setd_val v hpres
        have hpres1 : (lookupd (setd s.key_to_val key v) key).isSome := by
          rw [lookupd_setd_self]
          rfl
        obtain ⟨s', hupd, hinv, -, -⟩ :=
          lfuUpdateFreq_inv h1 hpres1 (touches_self_put key v)
            (fun a ha => touches_ne_put v ha)
        refine ⟨none, s', ?_, hinv⟩
        simp only [lfuStep]
        unfold lfuPut
        rw [if_neg hcap, hl]
        dsimp only
        rw [hupd]
        rfl
      | none =>
        by_cases hfull : (s.key_to_val.length : Int) ≥ s.capacity
        · have hkvne : s.key_to_val ≠ [] := by
            intro hnil
            rw [hnil] at hfull
            simp only [List.length_nil, Nat.cast_zero, ge_iff_le] at hfull
            omega
          obtain ⟨ks, hks, hksne⟩ := h.min_bucket hkvne
          obtain ⟨e, rest, rfl⟩ : ∃ e rest, ks = e :: rest := by
            cases ks with
            | nil => exact absurd rfl hksne
            | cons e rest => exact ⟨e, rest, rfl⟩
          have hkfe : lookupd s.key_to_freq e = some s.min_freq :=
            h.mem_bucket _ _ hks e (List.mem_cons_self _ _)
          have hef : (lookupd s.key_to_freq e).isSome := by rw [hkfe]; rfl
          have hev : (lookupd s.key_to_val e).isSome := (h.kv_kf e).mpr hef
          have hchar := lfuPut_fresh_evict_char v hcap hl hfull hks hev hef
          have hpre := lfu_evict_pre h hks
          have habs1 : lookupd (erased s.key_to_val e) key = none := by
            by_cases hke : key = e
            · subst hke
              exact lookupd_erased_self key h.kv_nd
            · rw [lookupd_erased_ne _ hke]
              exact hl
          have hinv := lfu_insert_inv (Op.put key v) v hpre hcap habs1
            (touches_self_put key v) (fun a ha => touches_ne_put v ha)
          refine ⟨none, _, ?_, hinv⟩
          simp only [lfuStep]
          rw [hchar]
          rfl
        · have hchar := lfuPut_fresh_room_char v hcap hl hfull
          have hinv := lfu_insert_inv (Op.put key v) v h.toPre hcap hl
            (touches_self_put key v) (fun a ha => touches_ne_put v ha)
          refine ⟨none, _, ?_, hinv⟩
          simp only [lfuStep]
          rw [hchar]
          rfl

/-- Any operation sequence on a fresh LFU cache runs to completion and lands
in an invariant state. -/
theorem lfuRun_inv (capacity : Int) (ops : List Op) :
    ∃ outs sf, lfuRun capacity ops = some (outs, sf) ∧ LFUInv ops sf := by
  have := runOps_inv lfuStep LFUInv
    (fun ops s op h => lfuStep_inv ops s op h) ops [] (lfuInit capacity)
    (lfuInv_init capacity)
  simpa using this

/-- `_update_freq` never changes `key_to_val` or the capacity. -/
theorem lfuUpdateFreq_kv {s : LFUState} {key : Int} {s' : LFUState}
    (h : lfuUpdateFreq s key = some s') :
    s'.key_to_val = s.key_to_val ∧ s'.capacity = s.capacity := by
  unfold lfuUpdateFreq at h
  cases h1 : lookupd s.key_to_freq key with
  | none =>
    rw [h1] at h
    exact Option.noConfusion h
  | some freq =>
    rw [h1] at h
    dsimp only at h
    cases h2 : lookupd s.freq_to_keys freq with
    | none =>
      rw [h2] at h
      exact Option.noConfusion h
    | some b =>
      rw [h2] at h
      dsimp only at h
      by_cases hmem : key ∈ b
      · rw [if_pos hmem] at h
        simp only [Option.some.injEq] at h
        rw [← h]
        exact ⟨rfl, rfl⟩
      · rw [if_neg hmem] at h
        exact Option.noConfusion h

/-- Size accounting for a successful `LFUCache.put`: the size never grows
except by one below capacity. -/
theorem lfuPut_length {s : LFUState} {key value : Int} {s' : LFUState}
    (h : lfuPut s key value = some s') :
    s'.capacity = s.capacity ∧
      (s'.key_to_val.length ≤ s.key_to_val.length ∨
        (¬(s.key_to_val.length : Int) ≥ s.capacity ∧
          s'.key_to_val.length = s.key_to_val.length + 1)) := by
  unfold lfuPut at h
  by_cases hcap : s.capacity ≤ 0
  · rw [if_pos hcap] at h
    simp only [Option.some.injEq] at h
    rw [← h]
    exact ⟨rfl, Or.inl le_rfl⟩
  · rw [if_neg hcap] at h
    cases hl : lookupd s.key_to_val key with
    | some w =>
      rw [hl] at h
      dsimp only at h
      obtain ⟨hkv, hcap'⟩ := lfuUpdateFreq_kv h
      refine ⟨hcap', Or.inl ?_⟩
      rw [hkv]
      dsimp only
      have hmem : key ∈ s.key_to_val.map Prod.fst := by
        rw [← lookupd_isSome_iff, hl]; rfl
      rw [length_setd_of_mem value hmem]
    | none =>
      rw [hl] at h
      dsimp only at h
      by_cases hfull : (s.key_to_val.length : Int) ≥ s.capacity
      · rw [if_pos hfull] at h
        cases hbk : lookupd s.freq_to_keys s.min_freq with
        | none =>
          rw [hbk] at h
          exact Option.noConfusion h
        | some b =>
          rw [hbk] at h
          dsimp only at h
          cases b with
          | nil => exact Option.noConfusion h
          | cons e rest =>
            dsimp only at h
            cases hkve : lookupd s.key_to_val e with
            | none =>
              rw [hkve] at h
              exact Option.noConfusion h
            | some w =>
              rw [hkve] at h
              cases hkfe : lookupd s.key_to_freq e with
              | none =>
                rw [hkfe] at h
                exact Option.noConfusion h
              | some f =>
                rw [hkfe] at h
                dsimp only at h
                simp only [Option.some.injEq] at h
                rw [← h]
                refine ⟨rfl, Or.inl ?_⟩
                dsimp only
                have hemem : e ∈ s.key_to_val.map Prod.fst := by
                  rw [← lookupd_isSome_iff, hkve]; rfl
                have herase := length_erased_of_mem (l := s.key_to_val) hemem
                have hkabs : key ∉ (erased s.key_to_val e).map Prod.fst := by
                  intro hk
                  have : key ∈ s.key_to_val.map Prod.fst :=
                    keys_erased_subset s.key_to_val e hk
                  rw [← lookupd_isSome_iff, hl] at this
                  exact Bool.noConfusion this
                rw [setd_eq_append value hkabs]
                simp only [List.length_append, List.length_cons, List.length_nil]
                omega
      · rw [if_neg hfull] at h
        dsimp only at h
        simp only [Option.some.injEq] at h
        rw [← h]
        refine ⟨rfl, Or.inr ⟨hfull, ?_⟩⟩
        dsimp only
        have hkabs : key ∉ s.key_to_val.map Prod.fst := by
          rw [← lookupd_eq_none_iff]
          exact hl
        rw [setd_eq_append value hkabs]
        simp

/-- Size accounting for any successful LFU step. -/
theorem lfuStep_length {s : LFUState} {op : Op} {o : Option Int} {s' : LFUState}
    (h : lfuStep s op = some (o, s'))
    (hlen : (s.key_to_val.length : Int) ≤ s.capacity) :
    s'.capacity = s.capacity ∧ (s'.key_to_val.length : Int) ≤ s.capacity := by
  cases op with
  | get key =>
    simp only [lfuStep, Option.map_eq_some'] at h
    obtain ⟨r, hget, hpair⟩ := h
    obtain ⟨v, s1⟩ := r
    cases hpair
    unfold lfuGet at hget
    cases hl : lookupd s.key_to_val key with
    | none =>
      rw [hl] at hget
      simp only [Option.some.injEq, Prod.mk.injEq] at hget
      rw [← hget.2]
      exact ⟨rfl, hlen⟩
    | some w =>
      rw [hl] at hget
      dsimp only at hget
      cases hupd : lfuUpdateFreq s key with
      | none =>
        rw [hupd] at hget
        exact Option.noConfusion hget
      | some s2 =>
        rw [hupd] at hget
        dsimp only at hget
        obtain ⟨hkv, hcap⟩ := lfuUpdateFreq_kv hupd
        cases hl2 : lookupd s2.key_to_val key with
        | none =>
          rw [hl2] at hget
          exact Option.noConfusion hget
        | some v2 =>
          rw [hl2] at hget
          simp only [Option.some.injEq, Prod.mk.injEq] at hget
          rw [← hget.2]
          rw [hcap, hkv]
          exact ⟨rfl, hlen⟩
  | put key v =>
    simp only [lfuStep, Option.map_eq_some'] at h
    obtain ⟨s1, hput, hpair⟩ := h
    cases hpair
    obtain ⟨hcap, hlen'⟩ := lfuPut_length hput
    refine ⟨hcap, ?_⟩
    rcases hlen' with h1 | ⟨h2, h3⟩
    · have hc : ((s'.key_to_val.length : Int)) ≤ (s.key_to_val.length : Int) := by
        exact_mod_cast h1
      omega
    · rw [h3]
      push_cast
      omega

/-- From an invariant state, a `get` on a present key returns its stored
value (and succeeds). -/
theorem lfuGet_hit_of_inv {ops : List Op} {s : LFUState} (h : LFUInv ops s)
    {key v : Int} (hl : lookupd s.key_to_val key = some v) :
    ∃ s', lfuGet s key = some (v, s') := by
  obtain ⟨o, s', hstep, -⟩ := lfuStep_inv ops s (Op.get key) h
  have hsome : (lfuGet s key).isSome := by
    simp only [lfuStep] at hstep
    cases hg : lfuGet s key with
    | none =>
      rw [hg] at hstep
      exact Option.noConfusion hstep
    | some r => rfl
  cases hupd : lfuUpdateFreq s key with
  | none =>
    exfalso
    unfold lfuGet at hsome
    rw [hl] at hsome
    dsimp only at hsome
    rw [hupd] at hsome
    exact Bool.noConfusion hsome
  | some s2 =>
    obtain ⟨hkv, -⟩ := lfuUpdateFreq_kv hupd
    refine ⟨s2, ?_⟩
    unfold lfuGet
    rw [hl]
    dsimp only
    rw [hupd]
    dsimp only
    rw [hkv, hl]

/-- Distinct fresh `put`s that fit under capacity append to `key_to_val` in
order, stay in the invariant, and produce no output. -/
theorem lfu_fresh_puts_kv : ∀ (kvs : List (Int × Int)) (ops : List Op) (s : LFUState),
    LFUInv ops s →
    (∀ p ∈ kvs, lookupd s.key_to_val p.1 = none) →
    (kvs.map Prod.fst).Nodup →
    ((s.key_to_val.length : Int) + kvs.length ≤ s.capacity) →
    ∃ sf, runOps lfuStep s (puts kvs) = some ([], sf) ∧
      LFUInv (ops ++ puts kvs) sf ∧
      sf.key_to_val = s.key_to_val ++ kvs ∧ sf.capacity = s.capacity := by
  intro kvs
  induction kvs with
  | nil =>
    intro ops s h _ _ _
    exact ⟨s, by simp [puts, runOps], by simpa [puts] using h, by simp, rfl⟩
  | cons p rest ih =>
    intro ops s h habs hnd hlen
    have hp : lookupd s.key_to_val p.1 = none := habs p (List.mem_cons_self p rest)
    have hcap : ¬s.capacity ≤ 0 := by
      simp only [List.length_cons] at hlen
      push_cast at hlen
      omega
    have hroom : ¬(s.key_to_val.length : Int) ≥ s.capacity := by
      simp only [List.length_cons] at hlen
      push_cast at hlen
      omega
    have hchar := lfuPut_fresh_room_char p.2 hcap hp hroom
    have hkvabs : p.1 ∉ s.key_to_val.map Prod.fst := by
      rw [← lookupd_eq_none_iff]
      exact hp
    have hkv' : (setd s.key_to_val p.1 p.2) = s.key_to_val ++ [p] :=
      setd_eq_append p.2 hkvabs
    obtain ⟨o, s', hstep, hinv⟩ := lfuStep_inv ops s (Op.put p.1 p.2) h
    have hstep2 : lfuStep s (Op.put p.1 p.2) =
        some (none, ⟨s.capacity, 1, setd s.key_to_val p.1 p.2,
          setd s.key_to_freq p.1 1,
          (match lookupd s.freq_to_keys 1 with
           | none => setd s.freq_to_keys 1 [p.1]
           | some b => setd s.freq_to_keys 1 (bucketAdd b p.1))⟩) := by
      simp only [lfuStep, hchar, Option.map_some']
    rw [hstep2] at hstep
    simp only [Option.some.injEq, Prod.mk.injEq] at hstep
    rw [← hstep.2] at hinv
    rw [hkv'] at hstep2 hinv
    simp only [List.map_cons, List.nodup_cons] at hnd
    have habs' : ∀ q ∈ rest,
        lookupd ((⟨s.capacity, 1, s.key_to_val ++ [p],
          setd s.key_to_freq p.1 1,
          (match lookupd s.freq_to_keys 1 with
           | none => setd s.freq_to_keys 1 [p.1]
           | some b => setd s.freq_to_keys 1 (bucketAdd b p.1))⟩ : LFUState)).key_to_val
          q.1 = none := by
      intro q hq
      have hne : q.1 ≠ p.1 := by
        intro hh
        exact hnd.1 (hh ▸ List.mem_map.mpr ⟨q, hq, rfl⟩)
      dsimp only
      rw [lookupd_append_single_ne _ _ hne]
      exact habs q (List.mem_cons_of_mem p hq)
    have hlen' : ((((s.key_to_val ++ [p]).length : Int)) + rest.length ≤ s.capacity) := by
      simp only [List.length_append, List.length_cons, List.length_nil] at hlen ⊢
      push_cast at hlen ⊢
      omega
    obtain ⟨sf, hrun, hinvf, hkvf, hcapf⟩ := ih (ops ++ [Op.put p.1 p.2]) _ hinv
      habs' hnd.2 hlen'
    refine ⟨sf, ?_, ?_, ?_, hcapf⟩
    · have hputs : puts (p :: rest) = Op.put p.1 p.2 :: puts rest := by simp [puts]
      rw [hputs, runOps_cons_eq hstep2 hrun]
      simp
    · simpa [puts, List.append_assoc] using hinvf
    · rw [hkvf]
      simp

/-- Full analysis of an eviction: from an invariant state that is at
capacity, a fresh `put` evicts exactly the head of the `min_freq` bucket,
which has globally minimal frequency and, among the keys sharing that
frequency, was touched least recently (largest staleness rank). -/
theorem lfu_evict_analysis {ops : List Op} {s : LFUState} (h : LFUInv ops s)
    {key value : Int} {s' : LFUState}
    (hcap : 1 ≤ s.capacity)
    (hfull : (s.key_to_val.length : Int) ≥ s.capacity)
    (habs : lookupd s.key_to_val key = none)
    (hput : lfuPut s key value = some s') :
    ∃ e : Int,
      (lookupd s.key_to_val e).isSome ∧
      lookupd s.key_to_freq e = some s.min_freq ∧
      (∀ (k : Int) (f : Nat), lookupd s.key_to_freq k = some f → s.min_freq ≤ f) ∧
      (∀ k : Int, k ≠ e → lookupd s.key_to_freq k = some s.min_freq →
        rankOf ops e > rankOf ops k) ∧
      lookupd s'.key_to_val e = none ∧
      lookupd s'.key_to_val key = some value ∧
      (∀ k : Int, k ≠ e → k ≠ key → lookupd s'.key_to_val k = lookupd s.key_to_val k) := by
  have hcap' : ¬s.capacity ≤ 0 := by omega
  have hkvne : s.key_to_val ≠ [] := by
    intro hnil
    rw [hnil] at hfull
    simp only [List.length_nil, Nat.cast_zero, ge_iff_le] at hfull
    omega
  obtain ⟨ks, hks, hksne⟩ := h.min_bucket hkvne
  obtain ⟨e, rest, rfl⟩ : ∃ e rest, ks = e :: rest := by
    cases ks with
    | nil => exact absurd rfl hksne
    | cons e rest => exact ⟨e, rest, rfl⟩
  have hkfe : lookupd s.key_to_freq e = some s.min_freq :=
    h.mem_bucket _ _ hks e (List.mem_cons_self _ _)
  have hef : (lookupd s.key_to_freq e).isSome := by rw [hkfe]; rfl
  have hev : (lookupd s.key_to_val e).isSome := (h.kv_kf e).mpr hef
  have hchar := lfuPut_fresh_evict_char value hcap' habs hfull hks hev hef
  rw [hput] at hchar
  simp only [Option.some.injEq] at hchar
  have hene : e ≠ key := by
    intro hh
    rw [hh, habs] at hev
    exact Bool.noConfusion hev
  have hkeyabs1 : key ∉ (erased s.key_to_val e).map Prod.fst := by
    intro hk
    have : key ∈ s.key_to_val.map Prod.fst := keys_erased_subset s.key_to_val e hk
    rw [← lookupd_isSome_iff, habs] at this
    exact Bool.noConfusion this
  have hkvs' : s'.key_to_val = erased s.key_to_val e ++ [(key, value)] := by
    rw [hchar]
    dsimp only
    exact setd_eq_append value hkeyabs1
  refine ⟨e, hev, hkfe, h.min_le, ?_, ?_, ?_, ?_⟩
  · intro k hkne hkf
    obtain ⟨ks2, hks2, hkmem⟩ := h.bucket_mem k _ hkf
    rw [hks] at hks2
    simp only [Option.some.injEq] at hks2
    subst hks2
    have hkrest : k ∈ rest := by
      rcases List.mem_cons.mp hkmem with h1 | h2
      · exact absurd h1 hkne
      · exact h2
    have hpw := h.bucket_rec _ _ hks
    rw [List.pairwise_cons] at hpw
    exact hpw.1 k hkrest
  · rw [hkvs', lookupd_append_single_ne _ _ hene]
    exact lookupd_erased_self e h.kv_nd
  · rw [hkvs']
    rw [lookupd_append_right [(key, value)] hkeyabs1]
    simp [lookupd]
  · intro k hke hkey
    rw [hkvs', lookupd_append_single_ne _ _ hkey]
    exact lookupd_erased_ne _ hke

/-- `LFUCache.get` on an absent key: miss, `-1`, state untouched. -/
theorem lfuGet_miss {s : LFUState} {key : Int}
    (hl : lookupd s.key_to_val key = none) : lfuGet s key = some (-1, s) := by
  unfold lfuGet
  rw [hl]

/-- Whatever a successful `lfuGet` returns is the stored value of the key. -/
theorem lfuGet_val {s : LFUState} {key r v : Int} {s'' : LFUState}
    (hl : lookupd s.key_to_val key = some v)
    (hget : lfuGet s key = some (r, s'')) : r = v := by
  unfold lfuGet at hget
  rw [hl] at hget
  dsimp only at hget
  cases hupd : lfuUpdateFreq s key with
  | none =>
    rw [hupd] at hget
    exact Option.noConfusion hget
  | some s2 =>
    rw [hupd] at hget
    dsimp only at hget
    obtain ⟨hkv, -⟩ := lfuUpdateFreq_kv hupd
    rw [hkv, hl] at hget
    simp only [Option.some.injEq, Prod.mk.injEq] at hget
    exact hget.1.symm

/-- A successful `LFUCache.put` at positive capacity stores the value. -/
theorem lfuPut_stores {s : LFUState} {key value : Int} {s' : LFUState}
    (hcap : ¬s.capacity ≤ 0) (hput : lfuPut s key value = some s') :
    lookupd s'.key_to_val key = some value := by
  unfold lfuPut at hput
  rw [if_neg hcap] at hput
  cases hl : lookupd s.key_to_val key with
  | some w =>
    rw [hl] at hput
    dsimp only at hput
    obtain ⟨hkv, -⟩ := lfuUpdateFreq_kv hput
    rw [hkv]
    dsimp only
    exact lookupd_setd_self _ _ _
  | none =>
    rw [hl] at hput
    dsimp only at hput
    by_cases hfull : (s.key_to_val.length : Int) ≥ s.capacity
    · rw [if_pos hfull] at hput
      cases hbk : lookupd s.freq_to_keys s.min_freq with
      | none =>
        rw [hbk] at hput
        exact Option.noConfusion hput
      | some b =>
        rw [hbk] at hput
        dsimp only at hput
        cases b with
        | nil => exact Option.noConfusion hput
        | cons e rest =>
          dsimp only at hput
          cases hkve : lookupd s.key_to_val e with
          | none =>
            rw [hkve] at hput
            exact Option.noConfusion hput
          | some w =>
            rw [hkve] at hput
            cases hkfe : lookupd s.key_to_freq e with
            | none =>
              rw [hkfe] at hput
              exact Option.noConfusion hput
            | some f =>
              rw [hkfe] at hput
              dsimp only at hput
              simp only [Option.some.injEq] at hput
              rw [← hput]
              dsimp only
              exact lookupd_setd_self _ _ _
    · rw [if_neg hfull] at hput
      dsimp only at hput
      simp only [Option.some.injEq] at hput
      rw [← hput]
      dsimp only
      exact lookupd_setd_self _ _ _

theorem lookupd_setd_isSome_mono {α β : Type} [DecidableEq α]
    (l : List (α × β)) (k : α) (v : β) (g : α)
    (h : (lookupd l g).isSome) : (lookupd (setd l k v) g).isSome := by
  by_cases hg : g = k
  · subst hg
    rw [lookupd_setd_self]
    rfl
  · rw [lookupd_setd_ne _ _ hg]
    exact h

/-- `_update_freq` never removes a frequency from `freq_to_keys`. -/
theorem lfuUpdateFreq_ftk_mono {s : LFUState} {key : Int} {s' : LFUState}
    (h : lfuUpdateFreq s key = some s') (f : Nat)
    (hf : (lookupd s.freq_to_keys f).isSome) :
    (lookupd s'.freq_to_keys f).isSome := by
  unfold lfuUpdateFreq at h
  cases h1 : lookupd s.key_to_freq key with
  | none =>
    rw [h1] at h
    exact Option.noConfusion h
  | some freq =>
    rw [h1] at h
    dsimp only at h
    cases h2 : lookupd s.freq_to_keys freq with
    | none =>
      rw [h2] at h
      exact Option.noConfusion h
    | some b =>
      rw [h2] at h
      dsimp only at h
      by_cases hmem : key ∈ b
      · rw [if_pos hmem] at h
        simp only [Option.some.injEq] at h
        rw [← h]
        dsimp only
        cases hb2 : lookupd (setd s.freq_to_keys freq (eraseKey b key)) (freq + 1) with
        | none =>
          exact lookupd_setd_isSome_mono _ _ _ _
            (lookupd_setd_isSome_mono _ _ _ _ hf)
        | some b2 =>
          exact lookupd_setd_isSome_mono _ _ _ _
            (lookupd_setd_isSome_mono _ _ _ _ hf)
      · rw [if_neg hmem] at h
        exact Option.noConfusion h

/-- No LFU operation ever removes a frequency from `freq_to_keys`: emptied
buckets are left in place. -/
theorem lfuStep_ftk_mono {s : LFUState} {op : Op} {o : Option Int} {s' : LFUState}
    (h : lfuStep s op = some (o, s')) (f : Nat)
    (hf : (lookupd s.freq_to_keys f).isSome) :
    (lookupd s'.freq_to_keys f).isSome := by
  cases op with
  | get key =>
    simp only [lfuStep, Option.map_eq_some'] at h
    obtain ⟨r, hget, hpair⟩ := h
    obtain ⟨v1, s1⟩ := r
    cases hpair
    unfold lfuGet at hget
    cases hl : lookupd s.key_to_val key with
    | none =>
      rw [hl] at hget
      simp only [Option.some.injEq, Prod.mk.injEq] at hget
      rw [← hget.2]
      exact hf
    | some w =>
      rw [hl] at hget
      dsimp only at hget
      cases hupd : lfuUpdateFreq s key with
      | none =>
        rw [hupd] at hget
        exact Option.noConfusion hget
      | some s2 =>
        rw [hupd] at hget
        dsimp only at hget
        cases hl2 : lookupd s2.key_to_val key with
        | none =>
          rw [hl2] at hget
          exact Option.noConfusion hget
        | some v2 =>
          rw [hl2] at hget
          simp only [Option.some.injEq, Prod.mk.injEq] at hget
          rw [← hget.2]
          exact lfuUpdateFreq_ftk_mono hupd f hf
  | put key v =>
    simp only [lfuStep, Option.map_eq_some'] at h
    obtain ⟨s1, hput, hpair⟩ := h
    cases hpair
    unfold lfuPut at hput
    by_cases hcap : s.capacity ≤ 0
    · rw [if_pos hcap] at hput
      simp only [Option.some.injEq] at hput
      rw [← hput]
      exact hf
    · rw [if_neg hcap] at hput
      cases hl : lookupd s.key_to_val key with
      | some w =>
        rw [hl] at hput
        dsimp only at hput
        exact lfuUpdateFreq_ftk_mono hput f hf
      | none =>
        rw [hl] at hput
        dsimp only at hput
        by_cases hfull : (s.key_to_val.length : Int) ≥ s.capacity
        · rw [if_pos hfull] at hput
          cases hbk : lookupd s.freq_to_keys s.min_freq with
          | none =>
            rw [hbk] at hput
            exact Option.noConfusion hput
          | some b =>
            rw [hbk] at hput
            dsimp only at hput
            cases b with
            | nil => exact Option.noConfusion hput
            | cons e rest =>
              dsimp only at hput
              cases hkve : lookupd s.key_to_val e with
              | none =>
                rw [hkve] at hput
                exact Option.noConfusion hput
              | some w =>
                rw [hkve] at hput
                cases hkfe : lookupd s.key_to_freq e with
                | none =>
                  rw [hkfe] at hput
                  exact Option.noConfusion hput
                | some fe =>
                  rw [hkfe] at hput
                  dsimp only at hput
                  simp only [Option.some.injEq] at hput
                  rw [← hput]
                  dsimp only
                  have hf1 : (lookupd (setd s.freq_to_keys s.min_freq rest) f).isSome :=
                    lookupd_setd_isSome_mono _ _ _ _ hf
                  cases hb1 : lookupd (setd s.freq_to_keys s.min_freq rest) 1 with
                  | none =>
                    exact lookupd_setd_isSome_mono _ _ _ _ hf1
                  | some b1 =>
                    exact lookupd_setd_isSome_mono _ _ _ _ hf1
        · rw [if_neg hfull] at hput
          dsimp only at hput
          simp only [Option.some.injEq] at hput
          rw [← hput]
          dsimp only
          cases hb1 : lookupd s.freq_to_keys 1 with
          | none =>
            exact lookupd_setd_isSome_mono _ _ _ _ hf
          | some b1 =>
            exact lookupd_setd_isSome_mono _ _ _ _ hf

theorem runOps_append_eq {σ : Type} {step : σ → Op → Option (Option Int × σ)} {s : σ}
    {l1 l2 : List Op} {outs1 outs2 : List Int} {s1 s2 : σ}
    (h1 : runOps step s l1 = some (outs1, s1))
    (h2 : runOps step s1 l2 = some (outs2, s2)) :
    runOps step s (l1 ++ l2) = some (outs1 ++ outs2, s2) := by
  induction l1 generalizing s outs1 with
  | nil =>
    simp only [runOps, Option.some.injEq, Prod.mk.injEq] at h1
    obtain ⟨h1a, h1b⟩ := h1
    subst h1a
    subst h1b
    simpa using h2
  | cons op rest ih =>
    simp only [runOps] at h1
    cases hs : step s op with
    | none =>
      rw [hs] at h1
      exact Option.noConfusion h1
    | some r =>
      rw [hs] at h1
      obtain ⟨o, s'⟩ := r
      dsimp only at h1
      cases hr : runOps step s' rest with
      | none =>
        rw [hr] at h1
        exact Option.noConfusion h1
      | some rf =>
        rw [hr] at h1
        obtain ⟨outsr, sr⟩ := rf
        simp only [Option.some.injEq, Prod.mk.injEq] at h1
        have hsr : sr = s1 := h1.2
        subst hsr
        have := runOps_cons_eq hs (ih hr)
        rw [List.cons_append, this, ← h1.1]
        simp

theorem lruSimpleGet_hit {t : LRUSimpleState} {k v : Int}
    (hl : lookupd t.cache k = some v) :
    lruSimpleGet t k = (v, ⟨t.capacity, erased t.cache k ++ [(k, v)]⟩) := by
  unfold lruSimpleGet
  rw [hl]

theorem lruSimpleGet_miss {t : LRUSimpleState} {k : Int}
    (hl : lookupd t.cache k = none) : lruSimpleGet t k = (-1, t) := by
  unfold lruSimpleGet
  rw [hl]

theorem lruSimple_fresh_puts : ∀ (kvs : List (Int × Int)) (t : LRUSimpleState),
    (kvs.map Prod.fst).Nodup →
    (∀ p ∈ kvs, lookupd t.cache p.1 = none) →
    ((t.cache.length : Int) + kvs.length ≤ t.capacity) →
    runOpsT lruSimpleStep t (puts kvs) = ([], ⟨t.capacity, t.cache ++ kvs⟩) := by
  intro kvs
  induction kvs with
  | nil =>
    intro t _ _ _
    simp [puts, runOpsT]
  | cons p rest ih =>
    intro t hnd habs hlen
    have hp : lookupd t.cache p.1 = none := habs p (List.mem_cons_self p rest)
    have hperase : erased t.cache p.1 = t.cache :=
      erased_of_not_mem (by rw [← lookupd_eq_none_iff]; exact hp)
    have hstep : lruSimpleStep t (Op.put p.1 p.2) = (none, ⟨t.capacity, t.cache ++ [p]⟩) := by
      simp only [lruSimpleStep, lruSimplePut, hperase]
      have hle : ¬((t.cache ++ [(p.1, p.2)]).length : Int) > t.capacity := by
        simp only [List.length_append, List.length_cons, List.length_nil, List.length_cons] at hlen ⊢
        push_cast at hlen ⊢
        omega
      rw [if_neg hle]
    simp only [List.map_cons, List.nodup_cons] at hnd
    have habs' : ∀ q ∈ rest, lookupd (t.cache ++ [p]) q.1 = none := by
      intro q hq
      have hne : q.1 ≠ p.1 := by
        intro hh
        exact hnd.1 (hh ▸ List.mem_map.mpr ⟨q, hq, rfl⟩)
      rw [show (p : Int × Int) = (p.1, p.2) from rfl, lookupd_append_single_ne _ _ hne]
      exact habs q (List.mem_cons_of_mem p hq)
    have hlen' : (((t.cache ++ [p]).length : Int) + rest.length ≤ t.capacity) := by
      simp only [List.length_append, List.length_cons, List.length_nil] at hlen ⊢
      push_cast at hlen ⊢
      omega
    have hputs : puts (p :: rest) = Op.put p.1 p.2 :: puts rest := by simp [puts]
    rw [hputs]
    simp only [runOpsT, hstep]
    have hrec := ih ⟨t.capacity, t.cache ++ [p]⟩ hnd.2 habs' hlen'
    rw [hrec]
    simp

theorem lruSimpleStep_length (t : LRUSimpleState) (op : Op)
    (hlen : (t.cache.length : Int) ≤ t.capacity) :
    ((lruSimpleStep t op).2).capacity = t.capacity ∧
      (((lruSimpleStep t op).2).cache.length : Int) ≤ t.capacity := by
  cases op with
  | get k =>
    cases hl : lookupd t.cache k with
    | none =>
      simp only [lruSimpleStep, lruSimpleGet_miss hl]
      exact ⟨by trivial, hlen⟩
    | some v =>
      simp only [lruSimpleStep, lruSimpleGet_hit hl]
      refine ⟨by trivial, ?_⟩
      have hmem : k ∈ t.cache.map Prod.fst := by
        rw [← lookupd_isSome_iff, hl]
        rfl
      have := length_erased_of_mem (l := t.cache) hmem
      simp only [List.length_append, List.length_cons, List.length_nil]
      push_cast
      push_cast at hlen
      omega
  | put k v =>
    simp only [lruSimpleStep, lruSimplePut]
    have hel : (erased t.cache k).length ≤ t.cache.length :=
      (erased_sublist t.cache k).length_le
    by_cases hgt : ((erased t.cache k ++ [(k, v)]).length : Int) > t.capacity
    · rw [if_pos hgt]
      refine ⟨rfl, ?_⟩
      simp only [List.length_tail, List.length_append, List.length_cons, List.length_nil]
      push_cast at hlen ⊢
      omega
    · rw [if_neg hgt]
      exact ⟨rfl, by push_cast at hgt ⊢; omega⟩

/-! ### Claim theorems -/

/-- C1: for every LFU cache with capacity ≥ 1 that is full, `put` of an
absent key evicts an entry of minimum access frequency, and when several
entries share that minimum the victim is the least recently touched among
them (largest staleness rank over the trace that built the cache, every
other key of the cache being untouched for strictly fewer steps); in
particular, with capacity 2, after put(1,1), put(2,2), put(3,3), key 1 is
evicted, so get(1) is a miss and get(2) is a hit. -/
theorem C1_lfu_evicts_min_freq_lru_tiebreak :
    (∀ (capacity : Int) (ops : List Op) (outs : List Int) (s : LFUState)
        (key value : Int) (s' : LFUState),
      1 ≤ s.capacity →
      lfuRun capacity ops = some (outs, s) →
      (s.key_to_val.length : Int) = s.capacity →
      lookupd s.key_to_val key = none →
      lfuPut s key value = some s' →
      ∃ e : Int,
        (lookupd s.key_to_val e).isSome ∧
        lookupd s.key_to_freq e = some s.min_freq ∧
        (∀ (k : Int) (f : Nat), lookupd s.key_to_freq k = some f → s.min_freq ≤ f) ∧
        (∀ k : Int, k ≠ e → lookupd s.key_to_freq k = some s.min_freq →
          rankOf ops e > rankOf ops k) ∧
        lookupd s'.key_to_val e = none ∧
        lookupd s'.key_to_val key = some value ∧
        (∀ k : Int, k ≠ e → k ≠ key →
          lookupd s'.key_to_val k = lookupd s.key_to_val k)) ∧
    (∃ s3 : LFUState,
      lfuRun 2 [Op.put 1 1, Op.put 2 2, Op.put 3 3] = some ([], s3) ∧
      lookupd s3.key_to_val 1 = none ∧
      lfuGet s3 1 = some (-1, s3) ∧
      ∃ s4 : LFUState, lfuGet s3 2 = some (2, s4)) := by
  constructor
  · intro capacity ops outs s key value s' hcap hrun hfull habs hput
    obtain ⟨outs2, sf, hrun2, hinv⟩ := lfuRun_inv capacity ops
    rw [hrun] at hrun2
    simp only [Option.some.injEq, Prod.mk.injEq] at hrun2
    rw [← hrun2.2] at hinv
    exact lfu_evict_analysis hinv hcap (ge_of_eq hfull) habs hput
  · exact ⟨⟨2, 1, [(2, 2), (3, 3)], [(2, 1), (3, 1)], [(1, [2, 3])]⟩, rfl, rfl, rfl,
      ⟨⟨2, 1, [(2, 2), (3, 3)], [(2, 2), (3, 1)], [(1, [3]), (2, [2])]⟩, rfl⟩⟩

/-- Witness for C1: the capacity-2 tie-break scenario instantiates the
universal statement; the victim exists, was present before the put and is
gone afterwards. -/
theorem C1_witness :
    ∃ e : Int,
      lookupd ([(1, 1), (2, 2)] : List (Int × Int)) e ≠ none ∧
      lookupd ([(2, 2), (3, 3)] : List (Int × Int)) e = none := by
  obtain ⟨e, he1, -, -, -, he5, -, -⟩ :=
    C1_lfu_evicts_min_freq_lru_tiebreak.1 2 [Op.put 1 1, Op.put 2 2] []
      ⟨2, 1, [(1, 1), (2, 2)], [(1, 1), (2, 1)], [(1, [1, 2])]⟩ 3 3
      ⟨2, 1, [(2, 2), (3, 3)], [(2, 1), (3, 1)], [(1, [2, 3])]⟩
      (by decide) rfl (by decide) rfl rfl
  exact ⟨e, Option.isSome_iff_ne_none.mp he1, he5⟩

/-- C2 counterexample: at capacity 0, `LRUCache.put` of an absent key is
not a successful no-op: `len(cache) >= capacity` triggers `_pop_tail`,
which detaches the dummy head and crashes in `_remove_node` with
`AttributeError` (`none` in the embedding), refuting "put ... succeeds
without error" for the hash-map + DLL LRU variant. -/
theorem C2_counterexample : lruPut (lruInit 0) 1 1 = none := rfl

/-- C2 amended: at capacity 0, `LFUCache` and `LRUCacheSimple` behave as
claimed — over every operation sequence the state stays empty, every `put`
stores nothing, and every `get` (including immediately after a `put` of
the same key) misses with `-1`; `LRUCache.get` also always misses, but
`LRUCache.put` raises instead of succeeding. -/
theorem C2_zero_capacity_amended :
    (∀ ops : List Op, ∃ outs : List Int,
      lfuRun 0 ops = some (outs, lfuInit 0) ∧ ∀ x ∈ outs, x = -1) ∧
    (∀ ops : List Op, (lruSimpleRun 0 ops).2 = lruSimpleInit 0 ∧
      ∀ x ∈ (lruSimpleRun 0 ops).1, x = -1) ∧
    (∀ k : Int, lruGet (lruInit 0) k = (-1, lruInit 0)) ∧
    (∀ k v : Int, lruPut (lruInit 0) k v = none) := by
  refine ⟨?_, ?_, ?_, ?_⟩
  · intro ops
    exact lfuRun_cap0 ops (lfuInit 0) (by decide) rfl
  · intro ops
    exact lruSimpleRun_cap0 ops (lruSimpleInit 0) (by decide) rfl
  · intro k
    exact lruGet_miss rfl
  · intro k v
    exact lruPut_fresh_nil v rfl (by decide) rfl

/-- Witness for C2 (amended): a put-then-get sequence at capacity 0 leaves
the LFU cache empty and yields only misses. -/
theorem C2_witness :
    ∃ outs : List Int, lfuRun 0 [Op.put 5 7, Op.get 5] = some (outs, lfuInit 0) ∧
      ∀ x ∈ outs, x = -1 :=
  C2_zero_capacity_amended.1 [Op.put 5 7, Op.get 5]

/-- C3 counterexample: at capacity 1 the protection clause fails — after
put(10,10), get(10) touches key 10, yet the very next put(20,20) still
evicts it (it is the only, hence least recently used, entry), so the
subsequent get(10) misses. -/
theorem C3_counterexample :
    lruRun 1 [Op.put 10 10, Op.get 10, Op.put 20 20] = some ([10], ⟨1, [(20, 20)]⟩) ∧
    (lruGet (⟨1, [(20, 20)]⟩ : LRUState) 10).1 = -1 := ⟨rfl, rfl⟩

/-- C3 amended: (part A, as claimed) for capacity N ≥ 1 and N+1 distinct
puts with no intervening gets, exactly the first-inserted key is evicted
and misses afterwards while the other N remain retrievable; (part B,
amended) a `get k` immediately before an eviction-triggering `put`
protects `k` only when the cache holds at least two entries (capacity ≥
2): the victim is then the least recently touched key — the tail of the
recency list after the get. -/
theorem C3_lru_eviction_order_amended :
    (∀ (p0 : Int × Int) (rest : List (Int × Int)) (capacity : Int),
      1 ≤ capacity →
      (rest.length : Int) = capacity →
      ((p0 :: rest).map Prod.fst).Nodup →
      ∃ s : LRUState,
        lruRun capacity (puts (p0 :: rest)) = some ([], s) ∧
        lookupd s.order p0.1 = none ∧
        (lruGet s p0.1).1 = -1 ∧
        ∀ p ∈ rest, lookupd s.order p.1 = some p.2) ∧
    (∀ (s : LRUState) (k vk j vj : Int),
      (s.order.map Prod.fst).Nodup →
      (s.order.length : Int) = s.capacity →
      2 ≤ s.capacity →
      lookupd s.order k = some vk →
      lookupd s.order j = none →
      ∃ s2 : LRUState,
        lruPut (lruGet s k).2 j vj = some s2 ∧
        s2.order = (j, vj) :: ((lruGet s k).2.order.dropLast) ∧
        lookupd s2.order k = some vk ∧
        lookupd s2.order j = some vj) := by
  constructor
  · intro p0 rest capacity hcap hlen hnd
    have hrestne : rest ≠ [] := by
      intro h
      rw [h] at hlen
      simp only [List.length_nil, Nat.cast_zero] at hlen
      omega
    obtain ⟨mid, q, rfl⟩ : ∃ mid q, rest = mid ++ [q] := by
      rcases List.eq_nil_or_concat rest with h | ⟨L, b, h⟩
      · exact absurd h hrestne
      · exact ⟨L, b, by simpa [List.concat_eq_append] using h⟩
    simp only [List.map_cons, List.map_append, List.map_cons, List.map_nil,
      List.nodup_cons, List.mem_append, List.mem_singleton] at hnd
    push_neg at hnd
    obtain ⟨⟨hp0mid, hp0q⟩, hnd2⟩ := hnd
    rw [List.nodup_append] at hnd2
    obtain ⟨hmidnd, -, hdisj⟩ := hnd2
    have hqmid : q.1 ∉ mid.map Prod.fst := by
      intro hmem
      exact hdisj hmem (List.mem_singleton.mpr rfl)
    have hfrontnd : ((p0 :: mid).map Prod.fst).Nodup := by
      simp only [List.map_cons, List.nodup_cons]
      exact ⟨hp0mid, hmidnd⟩
    have hmidlen : (mid.length : Int) + 1 = capacity := by
      simp only [List.length_append, List.length_cons, List.length_nil] at hlen
      push_cast at hlen
      omega
    have hfront := lru_fresh_puts (p0 :: mid) (lruInit capacity) hfrontnd
      (fun p _ => rfl)
      (by
        simp only [lruInit, List.length_nil, List.length_cons]
        push_cast
        omega)
    have hfront2 : runOps lruStep (lruInit capacity) (puts (p0 :: mid)) =
        some ([], ⟨capacity, mid.reverse ++ [p0]⟩) := by
      rw [hfront]
      simp [lruInit]
    clear hfront
    have hqp0 : ¬q.1 = p0.1 := fun hh => hp0q hh.symm
    have hqfresh :
        lookupd ((⟨capacity, mid.reverse ++ [p0]⟩ : LRUState).order) q.1 = none := by
      rw [lookupd_eq_none_iff]
      dsimp only
      simp only [List.map_append, List.map_reverse, List.map_cons, List.map_nil,
        List.mem_append, List.mem_reverse, List.mem_singleton]
      push_neg
      exact ⟨hqmid, hqp0⟩
    have hc : (((⟨capacity, mid.reverse ++ [p0]⟩ : LRUState).order.length : Int)) ≥
        (⟨capacity, mid.reverse ++ [p0]⟩ : LRUState).capacity := by
      dsimp only
      simp only [List.length_append, List.length_reverse, List.length_cons,
        List.length_nil]
      push_cast
      omega
    have hne : ((⟨capacity, mid.reverse ++ [p0]⟩ : LRUState).order) ≠ [] := by
      simp
    have hput := lruPut_fresh_evict q.2 hqfresh hc hne
    rw [show ((⟨capacity, mid.reverse ++ [p0]⟩ : LRUState).order.dropLast) = mid.reverse
      from List.dropLast_concat] at hput
    have hsingle : runOps lruStep (⟨capacity, (q.1, q.2) :: mid.reverse⟩ : LRUState) [] =
        some ([], ⟨capacity, (q.1, q.2) :: mid.reverse⟩) := rfl
    have hlast := runOps_cons_eq (lruStep_put_eq hput) hsingle
    have hsplit : puts (p0 :: (mid ++ [q])) = puts (p0 :: mid) ++ [Op.put q.1 q.2] := by
      simp [puts]
    have hrun := runOps_append_eq hfront2 hlast
    rw [← hsplit] at hrun
    have habs0 : lookupd ((q.1, q.2) :: mid.reverse) p0.1 = none := by
      rw [lookupd_eq_none_iff]
      simp only [List.map_cons, List.mem_cons, List.map_reverse, List.mem_reverse]
      push_neg
      exact ⟨fun hh => hqp0 hh.symm, hp0mid⟩
    have hfinnd : (((q.1, q.2) :: mid.reverse).map Prod.fst).Nodup := by
      simp only [List.map_cons, List.nodup_cons, List.map_reverse, List.mem_reverse,
        List.nodup_reverse]
      exact ⟨hqmid, hmidnd⟩
    refine ⟨⟨capacity, (q.1, q.2) :: mid.reverse⟩, by simpa using hrun, habs0, ?_, ?_⟩
    · rw [lruGet_miss habs0]
    · intro p hp
      have hmem : (p.1, p.2) ∈ ((q.1, q.2) :: mid.reverse) := by
        rcases List.mem_append.mp hp with hpmid | hpq
        · exact List.mem_cons_of_mem _ (List.mem_reverse.mpr hpmid)
        · rw [List.mem_singleton] at hpq
          subst hpq
          exact List.mem_cons_self _ _
      exact lookupd_of_mem_nodup hfinnd hmem
  · intro s k vk j vj hnd hfull htwo hk hj
    exact lru_get_protects hnd hfull htwo hk hj

/-- Witness for C3 (amended): capacity 2 with puts of keys 1, 2, 3 evicts
exactly key 1; and in a full 2-entry cache holding keys 5 and 6, getting 6
then putting 7 keeps 6 (and 7) — key 5, the least recently touched, is the
victim. -/
theorem C3_witness :
    (∃ s : LRUState,
      lruRun 2 (puts [(1, 1), (2, 2), (3, 3)]) = some ([], s) ∧
      lookupd s.order 1 = none ∧
      lookupd s.order 2 = some 2 ∧ lookupd s.order 3 = some 3) ∧
    (∃ s2 : LRUState,
      lruPut (lruGet (⟨2, [(5, 50), (6, 60)]⟩ : LRUState) 6).2 7 70 = some s2 ∧
      lookupd s2.order 6 = some 60 ∧ lookupd s2.order 7 = some 70) := by
  constructor
  · obtain ⟨s, hrun, habs, hget, hall⟩ :=
      C3_lru_eviction_order_amended.1 (1, 1) [(2, 2), (3, 3)] 2
        (by decide) (by decide) (by decide)
    exact ⟨s, hrun, habs, hall (2, 2) (by simp), hall (3, 3) (by simp)⟩
  · obtain ⟨s2, hput, hshape, hkk, hjj⟩ :=
      C3_lru_eviction_order_amended.2 ⟨2, [(5, 50), (6, 60)]⟩ 6 60 7 70
        (by decide) (by decide) (by decide) (by decide) (by decide)
    exact ⟨s2, hput, hkk, hjj⟩

/-- C4: round-trip law. For every cache variant and every sequence of puts
with pairwise distinct keys whose length does not exceed the capacity,
every key of the sequence is subsequently retrievable via `get`, which
returns the (last) value written for it. -/
theorem C4_round_trip :
    ∀ (kvs : List (Int × Int)) (capacity : Int),
      (kvs.map Prod.fst).Nodup →
      (kvs.length : Int) ≤ capacity →
      (∃ s : LRUState, lruRun capacity (puts kvs) = some ([], s) ∧
        ∀ p ∈ kvs, (lruGet s p.1).1 = p.2) ∧
      (∃ t : LFUState, lfuRun capacity (puts kvs) = some ([], t) ∧
        ∀ p ∈ kvs, ∃ t', lfuGet t p.1 = some (p.2, t')) ∧
      (∀ p ∈ kvs, (lruSimpleGet (lruSimpleRun capacity (puts kvs)).2 p.1).1 = p.2) := by
  intro kvs capacity hnd hlen
  refine ⟨?_, ?_, ?_⟩
  · have hrun := lru_fresh_puts kvs (lruInit capacity) hnd (fun p _ => rfl)
      (by simpa [lruInit] using hlen)
    refine ⟨⟨capacity, kvs.reverse ++ (lruInit capacity).order⟩, hrun, ?_⟩
    intro p hp
    have hndrev : (((kvs.reverse ++ (lruInit capacity).order)).map Prod.fst).Nodup := by
      simp only [lruInit, List.append_nil, List.map_reverse, List.nodup_reverse]
      exact hnd
    have hmem : (p.1, p.2) ∈ kvs.reverse ++ (lruInit capacity).order := by
      simp only [lruInit, List.append_nil, List.mem_reverse]
      exact hp
    have hl := lookupd_of_mem_nodup hndrev hmem
    rw [lruGet_hit hl]
  · obtain ⟨sf, hrun, hinv, hkv, -⟩ := lfu_fresh_puts_kv kvs [] (lfuInit capacity)
      (lfuInv_init capacity) (fun p _ => rfl) hnd (by simpa [lfuInit] using hlen)
    refine ⟨sf, hrun, ?_⟩
    intro p hp
    have hl : lookupd sf.key_to_val p.1 = some p.2 := by
      rw [hkv]
      exact lookupd_of_mem_nodup (by simpa [lfuInit] using hnd)
        (by simpa [lfuInit] using hp)
    exact lfuGet_hit_of_inv hinv hl
  · have hrun := lruSimple_fresh_puts kvs (lruSimpleInit capacity) hnd
      (fun p _ => rfl) (by simpa [lruSimpleInit] using hlen)
    intro p hp
    have hl : lookupd ((lruSimpleRun capacity (puts kvs)).2).cache p.1 = some p.2 := by
      have hstate : (lruSimpleRun capacity (puts kvs)).2 =
          ⟨capacity, (lruSimpleInit capacity).cache ++ kvs⟩ := by
        unfold lruSimpleRun
        rw [hrun]
        rfl
      rw [hstate]
      exact lookupd_of_mem_nodup (by simpa [lruSimpleInit] using hnd)
        (by simpa [lruSimpleInit] using hp)
    rw [lruSimpleGet_hit hl]

/-- Witness for C4: three distinct keys in a capacity-3 cache are all
retrievable with their values from all three variants. -/
theorem C4_witness :
    (∃ s : LRUState, lruRun 3 (puts [(4, 40), (5, 50)]) = some ([], s) ∧
      (lruGet s 4).1 = 40 ∧ (lruGet s 5).1 = 50) ∧
    (∃ t : LFUState, lfuRun 3 (puts [(4, 40), (5, 50)]) = some ([], t) ∧
      (∃ t', lfuGet t 4 = some (40, t')) ∧ ∃ t', lfuGet t 5 = some (50, t')) ∧
    (lruSimpleGet (lruSimpleRun 3 (puts [(4, 40), (5, 50)])).2 4).1 = 40 := by
  obtain ⟨⟨s, hs, hall⟩, ⟨t, ht, hallt⟩, hsimple⟩ :=
    C4_round_trip [(4, 40), (5, 50)] 3 (by decide) (by decide)
  exact ⟨⟨s, hs, hall (4, 40) (by simp), hall (5, 50) (by simp)⟩,
    ⟨t, ht, hallt (4, 40) (by simp), hallt (5, 50) (by simp)⟩,
    hsimple (4, 40) (by simp)⟩

/-- C5: with a non-negative capacity, `size ≤ capacity` holds after every
operation of every sequence, for all three cache variants (for the
fallible variants, along every successfully completed run; prefixes of a
sequence are themselves sequences, so this covers every intermediate
state). -/
theorem C5_size_le_capacity :
    ∀ (capacity : Int) (ops : List Op), 0 ≤ capacity →
      (∀ (outs : List Int) (s : LRUState),
        lruRun capacity ops = some (outs, s) → (s.order.length : Int) ≤ capacity) ∧
      (∀ (outs : List Int) (t : LFUState),
        lfuRun capacity ops = some (outs, t) → (t.key_to_val.length : Int) ≤ capacity) ∧
      (((lruSimpleRun capacity ops).2.cache.length : Int) ≤ capacity) := by
  intro capacity ops hcap
  refine ⟨?_, ?_, ?_⟩
  · intro outs s hrun
    have hpres := runOps_preserve lruStep
      (fun st => st.capacity = capacity ∧ (st.order.length : Int) ≤ capacity)
      (fun st op o st' hP hstep => by
        refine ⟨(lruStep_capacity hstep).trans hP.1, ?_⟩
        have := lruStep_length hstep (hP.1 ▸ hP.2)
        rwa [hP.1] at this)
      ops (lruInit capacity) outs s ⟨rfl, by simp [lruInit]; omega⟩ hrun
    exact hpres.2
  · intro outs t hrun
    have hpres := runOps_preserve lfuStep
      (fun st => st.capacity = capacity ∧ (st.key_to_val.length : Int) ≤ capacity)
      (fun st op o st' hP hstep => by
        obtain ⟨hc, hl⟩ := lfuStep_length hstep (hP.1 ▸ hP.2)
        exact ⟨hc.trans hP.1, hP.1 ▸ hl⟩)
      ops (lfuInit capacity) outs t ⟨rfl, by simp [lfuInit]; omega⟩ hrun
    exact hpres.2
  · have hpres := runOpsT_preserve lruSimpleStep
      (fun st => st.capacity = capacity ∧ (st.cache.length : Int) ≤ capacity)
      (fun st op hP => by
        obtain ⟨hc, hl⟩ := lruSimpleStep_length st op (hP.1 ▸ hP.2)
        exact ⟨hc.trans hP.1, hP.1 ▸ hl⟩)
      ops (lruSimpleInit capacity) ⟨rfl, by simp [lruSimpleInit]; omega⟩
    exact hpres.2

/-- Witness for C5: concrete runs at capacity 1 stay within the bound. -/
theorem C5_witness :
    ∃ (outs : List Int) (s : LRUState),
      lruRun 1 [Op.put 1 1, Op.put 2 2] = some (outs, s) ∧
      (s.order.length : Int) ≤ 1 ∧
      ((lruSimpleRun 1 [Op.put 1 1, Op.put 2 2]).2.cache.length : Int) ≤ 1 := by
  refine ⟨[], ⟨1, [(2, 2)]⟩, rfl, ?_, ?_⟩
  · exact (C5_size_le_capacity 1 [Op.put 1 1, Op.put 2 2] (by decide)).1 [] ⟨1, [(2, 2)]⟩ rfl
  · exact (C5_size_le_capacity 1 [Op.put 1 1, Op.put 2 2] (by decide)).2.2

/-- C6 counterexample: `put` is not total for a validly constructed cache
— at capacity 0 `LRUCache.put` of an absent key tries to pop the dummy
head and raises `AttributeError` rather than degrading to a no-op. -/
theorem C6_counterexample : lruPut (lruInit 0) 7 9 = none := rfl

/-- C6 amended: `get` and `put` are total over every key/value input and
every sequence for `LRUCache` whenever capacity ≥ 1, and for `LFUCache` at
every capacity (with `LRUCacheSimple` total by construction); the one
exception is `LRUCache.put` of an absent key when capacity ≤ 0, which
raises. -/
theorem C6_totality_amended :
    (∀ (capacity : Int) (ops : List Op), 1 ≤ capacity →
      (lruRun capacity ops).isSome) ∧
    (∀ (capacity : Int) (ops : List Op), (lfuRun capacity ops).isSome) := by
  constructor
  · intro capacity ops hcap
    exact lruRun_total ops (lruInit capacity) hcap
  · intro capacity ops
    obtain ⟨outs, sf, hrun, -⟩ := lfuRun_inv capacity ops
    rw [hrun]
    rfl

/-- Witness for C6 (amended): concrete runs complete for LRU at capacity 1
and for LFU even at a negative capacity. -/
theorem C6_witness :
    (lruRun 1 [Op.put 8 8, Op.get 8]).isSome ∧
    (lfuRun (-3) [Op.put 8 8, Op.get 8]).isSome :=
  ⟨C6_totality_amended.1 1 [Op.put 8 8, Op.get 8] (by decide),
    C6_totality_amended.2 (-3) [Op.put 8 8, Op.get 8]⟩

/-- C7 counterexample: construction with a negative capacity does not fail
— neither `__init__` contains any validation, so a live cache object is
returned with the negative capacity stored verbatim, and operations
proceed on it (an LFU `put` silently degrades to a no-op). -/
theorem C7_counterexample :
    (lruInit (-1)).capacity = -1 ∧
    (lruSimpleInit (-1)).capacity = -1 ∧
    (lfuInit (-1)).capacity = -1 ∧
    lfuPut (lfuInit (-1)) 5 7 = some (lfuInit (-1)) :=
  ⟨rfl, rfl, rfl, rfl⟩

/-- C7 amended: construction never validates the capacity: every integer,
negative ones included, is accepted and stored unchanged (no
`InvalidCapacity` error exists in the code). With a negative capacity the
LFU cache behaves as permanently empty (puts are no-ops, gets miss), the
DLL LRU cache misses on every get, and its put of an absent key raises. -/
theorem C7_no_capacity_validation_amended :
    ∀ capacity : Int, capacity < 0 →
      (lruInit capacity).capacity = capacity ∧
      (lruSimpleInit capacity).capacity = capacity ∧
      (lfuInit capacity).capacity = capacity ∧
      (∀ ops : List Op, ∃ outs : List Int,
        lfuRun capacity ops = some (outs, lfuInit capacity) ∧ ∀ x ∈ outs, x = -1) ∧
      (∀ k : Int, lruGet (lruInit capacity) k = (-1, lruInit capacity)) ∧
      (∀ k v : Int, lruPut (lruInit capacity) k v = none) := by
  intro capacity hneg
  refine ⟨rfl, rfl, rfl, ?_, ?_, ?_⟩
  · intro ops
    exact lfuRun_cap0 ops (lfuInit capacity) (by simpa [lfuInit] using le_of_lt hneg) rfl
  · intro k
    exact lruGet_miss rfl
  · intro k v
    refine lruPut_fresh_nil v rfl ?_ rfl
    simp only [lruInit, List.length_nil, Nat.cast_zero, ge_iff_le]
    omega

/-- Witness for C7 (amended): capacity −2 is accepted; a put-get sequence
still runs, returning only misses. -/
theorem C7_witness :
    (lruInit (-2)).capacity = -2 ∧
    ∃ outs : List Int, lfuRun (-2) [Op.put 1 1, Op.get 1] = some (outs, lfuInit (-2)) ∧
      ∀ x ∈ outs, x = -1 := by
  obtain ⟨h1, -, -, h4, -, -⟩ := C7_no_capacity_validation_amended (-2) (by decide)
  exact ⟨h1, h4 [Op.put 1 1, Op.get 1]⟩

/-- C8 counterexample: after put(1,1); get(1) at capacity 1, the frequency-1
bucket has been emptied by `_update_freq` but is still present in
`freq_to_keys`, mapped to an empty `OrderedDict` — the mapping does not
contain only non-empty buckets. -/
theorem C8_counterexample :
    lfuRun 1 [Op.put 1 1, Op.get 1] =
      some ([1], ⟨1, 2, [(1, 1)], [(1, 2)], [(1, []), (2, [1])]⟩) ∧
    lookupd ([(1, []), (2, [1])] : List (Nat × List Int)) 1 = some [] :=
  ⟨rfl, rfl⟩

/-- C8 amended: buckets emptied by a removal are retained in
`freq_to_keys` (mapped to an empty sequence), never dropped: no operation
ever removes a frequency from the mapping, and `min_freq` is advanced past
the empty bucket instead. -/
theorem C8_empty_buckets_retained_amended :
    (∀ (s : LFUState) (op : Op) (o : Option Int) (s' : LFUState),
      lfuStep s op = some (o, s') →
      ∀ f : Nat, (lookupd s.freq_to_keys f).isSome →
        (lookupd s'.freq_to_keys f).isSome) ∧
    (∃ s : LFUState, lfuRun 1 [Op.put 1 1, Op.get 1] = some ([1], s) ∧
      lookupd s.freq_to_keys 1 = some []) := by
  constructor
  · intro s op o s' h f hf
    exact lfuStep_ftk_mono h f hf
  · exact ⟨⟨1, 2, [(1, 1)], [(1, 2)], [(1, []), (2, [1])]⟩, rfl, rfl⟩

/-- Witness for C8 (amended): the emptied frequency-1 bucket survives the
`get` step that emptied it. -/
theorem C8_witness :
    (lookupd ([(1, []), (2, [1])] : List (Nat × List Int)) 1).isSome :=
  C8_empty_buckets_retained_amended.1
    ⟨1, 1, [(1, 1)], [(1, 1)], [(1, [1])]⟩ (Op.get 1) (some 1)
    ⟨1, 2, [(1, 1)], [(1, 2)], [(1, []), (2, [1])]⟩ rfl 1 rfl

/-- C9: for every capacity ≥ 1 and every interleaved sequence of gets and
puts, the hash-map + doubly-linked-list `LRUCache` and the OrderedDict
`LRUCacheSimple` return identical results from every `get` (the collected
output lists coincide), and their final states are related by the
simulation `cache = reverse(order)`: the two implementations are
observationally equivalent. -/
theorem C9_lru_implementations_equivalent :
    ∀ (capacity : Int) (ops : List Op), 1 ≤ capacity →
      ∃ sf : LRUState,
        lruRun capacity ops = some ((lruSimpleRun capacity ops).1, sf) ∧
        (lruSimpleRun capacity ops).2.cache = sf.order.reverse := by
  intro capacity ops hcap
  obtain ⟨sf, hrun, hrel, -⟩ := lru_sim_run ops (lruInit capacity)
    (lruSimpleInit capacity) hcap rfl rfl (by simp [lruInit])
    (by simp [lruInit]; omega)
  exact ⟨sf, hrun, hrel⟩

/-- Witness for C9: the end-to-end LRU scenario of the module's tests gives
identical get-results in both implementations. -/
theorem C9_witness :
    ∃ sf : LRUState,
      lruRun 2 [Op.put 1 1, Op.put 2 2, Op.get 1, Op.put 3 3, Op.get 2,
        Op.put 4 4, Op.get 1, Op.get 3, Op.get 4] =
        some ((lruSimpleRun 2 [Op.put 1 1, Op.put 2 2, Op.get 1, Op.put 3 3, Op.get 2,
          Op.put 4 4, Op.get 1, Op.get 3, Op.get 4]).1, sf) ∧
      (lruSimpleRun 2 [Op.put 1 1, Op.put 2 2, Op.get 1, Op.put 3 3, Op.get 2,
        Op.put 4 4, Op.get 1, Op.get 3, Op.get 4]).2.cache = sf.order.reverse :=
  C9_lru_implementations_equivalent 2
    [Op.put 1 1, Op.put 2 2, Op.get 1, Op.put 3 3, Op.get 2,
      Op.put 4 4, Op.get 1, Op.get 3, Op.get 4] (by decide)

/-- C10: both variants encode a miss as the in-band integer −1 returned
from `get` (never a distinct marker), so after `put(k, −1)` a subsequent
hit on `get(k)` returns −1 and is indistinguishable at the public
interface from a miss on an absent key.  (For the LFU half, the side
condition rules out only the degenerate unreachable case of a junk state
with non-positive capacity already containing `k`.) -/
theorem C10_miss_encoded_as_minus_one :
    (∀ (s : LRUState) (k : Int), lookupd s.order k = none → lruGet s k = (-1, s)) ∧
    (∀ (s : LRUState) (k : Int) (s' : LRUState),
      lruPut s k (-1) = some s' → (lruGet s' k).1 = -1) ∧
    (∀ (s : LFUState) (k : Int), lookupd s.key_to_val k = none →
      lfuGet s k = some (-1, s)) ∧
    (∀ (s : LFUState) (k : Int) (s' : LFUState),
      (0 < s.capacity ∨ lookupd s.key_to_val k = none) →
      lfuPut s k (-1) = some s' →
      ∀ (r : Int) (s'' : LFUState), lfuGet s' k = some (r, s'') → r = -1) := by
  refine ⟨?_, ?_, ?_, ?_⟩
  · intro s k hl
    exact lruGet_miss hl
  · intro s k s' hput
    obtain ⟨-, t, hshape, -⟩ := lruPut_shape hput
    have hl : lookupd s'.order k = some (-1) := by
      rw [hshape]
      simp [lookupd]
    rw [lruGet_hit hl]
  · intro s k hl
    exact lfuGet_miss hl
  · intro s k s' hside hput r s'' hget
    by_cases hcap : s.capacity ≤ 0
    · have habs : lookupd s.key_to_val k = none := by
        rcases hside with hpos | habs
        · omega
        · exact habs
      have hs' : s' = s := by
        unfold lfuPut at hput
        rw [if_pos hcap] at hput
        simp only [Option.some.injEq] at hput
        exact hput.symm
      rw [hs'] at hget
      rw [lfuGet_miss habs] at hget
      simp only [Option.some.injEq, Prod.mk.injEq] at hget
      exact hget.1.symm
    · exact lfuGet_val (lfuPut_stores hcap hput) hget

/-- Witness for C10: concrete misses return −1, and a stored −1 is
returned by a hit exactly like a miss. -/
theorem C10_witness :
    lruGet (⟨2, []⟩ : LRUState) 9 = (-1, (⟨2, []⟩ : LRUState)) ∧
    (lruGet (⟨2, [(9, -1)]⟩ : LRUState) 9).1 = -1 ∧
    lfuGet (lfuInit 2) 9 = some (-1, lfuInit 2) ∧
    (-1 : Int) = -1 := by
  refine ⟨?_, ?_, ?_, ?_⟩
  · exact C10_miss_encoded_as_minus_one.1 ⟨2, []⟩ 9 rfl
  · exact C10_miss_encoded_as_minus_one.2.1 ⟨2, []⟩ 9 ⟨2, [(9, -1)]⟩ rfl
  · exact C10_miss_encoded_as_minus_one.2.2.1 (lfuInit 2) 9 rfl
  · exact C10_miss_encoded_as_minus_one.2.2.2 (lfuInit 2) 9
      ⟨2, 1, [(9, -1)], [(9, 1)], [(1, [9])]⟩ (Or.inl (by decide)) rfl (-1)
      ⟨2, 2, [(9, -1)], [(9, 2)], [(1, []), (2, [9])]⟩ rfl
